import Mathlib

/-!
# Shallow embedding of the OpenVAS scanner NASL runtime core

This file embeds, in Lean 4, the fragments of the `openvas-scanner` Rust
sources that the verified claims are about:

* the tree-walking interpreter's control skeleton
  (`rust/nasl-interpreter/src/interpreter.rs`): position cursor,
  fork-skip replay (`skip_until_return`), `Block` frame handling,
  `include`, `retry_resolve` / `retry_resolve_next`, and the
  error-origin annotation performed by `resolve`;
* the source-to-source rewriter (`rust/feed/src/transpile/mod.rs`):
  `CodeReplacer` offset bookkeeping, the `FunctionNameMatcher`, and the
  `Replace::Name` command pipeline;
* the feed updater (`rust/feed/src/update/mod.rs`): `feed_version`,
  `single`, and the `Update` iterator;
* the knowledge-base built-ins
  (`rust/nasl-builtin-knowledge-base/src/lib.rs`).

Statements evaluated by arms that live in source files outside the
embedded fragment (the call / assign / operator / loop extension traits)
are represented by an explicit `unmodeled` error; no claim below depends
on them.  Types that the fragment consumes but whose definitions live in
other crates (`Register`, `NaslValue`, the error enums) are modelled from
the specification, as marked on each definition.
-/

namespace NaslSpec

/-- Byte span of a token in the original source buffer, `(start, end)`,
half-open, as carried by the parser's tokens. -/
structure Tok where
  pos : Nat × Nat
deriving DecidableEq, Repr

/-- Literal payload of a `Primitive` statement (the token category the
interpreter converts into a value). -/
inductive Prim where
  | nullP
  | numP (n : Int)
  | strP (s : String)
deriving DecidableEq, Repr

/-- The statement tree fragment used by the embedded interpreter and
rewriter.  Constructors mirror the `Statement` variants reached by the
claims; variants whose evaluation lives in the extension traits outside
the fragment (loops, assignments, operators, declarations) are omitted
because no claim exercises them. -/
inductive Stmt where
  | primitive (tok : Tok) (p : Prim)
  | var (tok : Tok) (name : String)
  | arrayS (tok : Tok) (name : String) (idx : Option Stmt)
  | parameter (args : List Stmt)
  | namedParam (tok : Tok) (name : String) (value : Stmt)
  | call (nameTok : Tok) (name : String) (args : List Stmt) (closeTok : Tok)
  | includeS (tok : Tok) (e : Stmt)
  | exitS (tok : Tok) (e : Stmt)
  | retS (e : Stmt)
  | funcDecl (nameTok : Tok) (name : String) (params : List Stmt)
      (closeTok : Tok) (body : Stmt)
  | block (stmts : List Stmt)
  | ifS (cond : Stmt) (thenB : Stmt) (elseB : Option Stmt)
  | attackCat (n : Nat)
  | continueS
  | breakS
  | noop
  | eof

/-- Modelled from the spec: the `NaslValue` tagged variant
(`Null | Boolean | Number | String | Data | Array | Dict | Exit |
Return | Fork | AttackCategory | Continue | Break`). -/
inductive NaslValue where
  | null
  | boolean (b : Bool)
  | number (n : Int)
  | string (s : String)
  | data (bytes : List Nat)
  | array (xs : List NaslValue)
  | dict (xs : List (String × NaslValue))
  | exit (n : Int)
  | retV (v : NaslValue)
  | fork (xs : List NaslValue)
  | attackCategory (n : Nat)
  | continueV
  | breakV

/-- Modelled from the spec: `ContextType` is either a plain value or a
user-defined function (parameter tokens plus body statement). -/
inductive ContextType where
  | value (v : NaslValue)
  | function (params : List String) (body : Stmt)

/-- Modelled from the spec: a register frame maps identifiers to context
entries. -/
abbrev Frame := List (String × ContextType)

/-- Modelled from the spec: the `Register` is an ordered stack of frames,
innermost frame first.  `create_child` pushes a frame, `drop_last` pops
it, lookup scans innermost to outermost. -/
abbrev Register := List Frame

/-- Innermost-first lookup of a name in the register. -/
def Register.named (r : Register) (name : String) : Option ContextType :=
  match r with
  | [] => none
  | fr :: rest =>
    match fr.find? (fun p => p.1 == name) with
    | some p => some p.2
    | none => Register.named rest name

/-- Modelled from the spec: `Register::root_initial(bindings)` builds a
stack holding just the initial frame. -/
def Register.root_initial (bindings : Frame) : Register := [bindings]

/-- Modelled from the spec: the loader error enumeration
`LoadError{Retry|NotFound|PermissionDenied|Dirty}`. -/
inductive LoadError where
  | retry
  | notFound
  | permissionDenied
  | dirty
deriving DecidableEq, Repr

/-- Modelled from the spec: `StorageError{Retry|…}`. -/
inductive StorageError where
  | retry
  | other
deriving DecidableEq, Repr

/-- Modelled from the spec: the slice of `io::ErrorKind` the retry policy
distinguishes. -/
inductive IOKind where
  | interrupted
  | other
deriving DecidableEq, Repr

/-- The error kinds `InterpretError` carries in the embedded fragment.
`unmodeled` marks statements whose evaluation lives outside the
fragment, and `outOfFuel` is an artifact of the fuel-based embedding of
the (unbounded) `include` recursion; neither occurs in any claim's
runs. -/
inductive InterpretErrorKind where
  | loadError (e : LoadError)
  | storageError (e : StorageError)
  | ioError (k : IOKind)
  | unsupported (expected : String)
  | wrongCategory
  | unreachableStatement
  | unmodeled
  | outOfFuel

/-- `InterpretError{origin: Option<Statement>, kind}`: the kind plus the
optional originating statement attached by `resolve`. -/
structure InterpretError where
  origin : Option Stmt
  kind : InterpretErrorKind

/-- `InterpretResult`: a value or an interpreter error. -/
abbrev InterpResult := Except InterpretError NaslValue

/-- The interpreter state: register, position cursor (index vector with
the innermost index first, so `up` conses a `0` and `down` drops the
head), the fork-replay marker, and the number of loader calls performed
so far (the loader object's call counter, made explicit because the
embedding is pure). -/
structure Interp where
  registrat : Register
  position : List Nat
  skip_until_return : Option (List Nat × NaslValue)
  loadCalls : Nat

/-- The slice of the process `Context` the fragment reaches: the loader.
It receives the relative path and the current call count (the loader
object's internal state made explicit) and yields the parsed statements
of the loaded file or a load error. -/
structure Ctx where
  loader : String → Nat → Except LoadError (List Stmt)

/-- The closure `resolve` applies with `map_err`: attach the statement
being resolved as the origin when the error does not carry one yet. -/
def annotateErr (stmt : Stmt) (e : InterpretError) : InterpretError :=
  match e.origin with
  | none => { origin := some stmt, kind := e.kind }
  | some _ => e

/-- Lift origin annotation to results (`map_err` leaves `Ok` alone). -/
def annotateRes (stmt : Stmt) : InterpResult → InterpResult
  | .ok v => .ok v
  | .error e => .error (annotateErr stmt e)

/-- The common exit path of a `resolve` arm: apply the `map_err`
annotation and pop the position (`self.position.down()`).  The `If` and
`Block` early `return`s in the source bypass this helper, exactly as
they bypass both steps in the code. -/
def finish (stmt : Stmt) (p : InterpResult × Interp) : InterpResult × Interp :=
  (annotateRes stmt p.1, { p.2 with position := p.2.position.tail })

/-- The retriable error set of `retry_resolve`: `LoadError::Retry`,
`StorageError::Retry`, `IOError(Interrupted)`. -/
def retriable : InterpretErrorKind → Bool
  | .loadError .retry => true
  | .storageError .retry => true
  | .ioError .interrupted => true
  | _ => false

/-- The control values the `Block` arm intercepts:
`Exit | Return | Break | Continue`. -/
def isControlFlow : NaslValue → Bool
  | .exit _ => true
  | .retV _ => true
  | .continueV => true
  | .breakV => true
  | _ => false

/-- Modelled from the spec: SL truthiness (`bool::from(NaslValue)`) —
non-zero numbers and non-empty, non-`"0"` strings are true. -/
def truthy : NaslValue → Bool
  | .null => false
  | .boolean b => b
  | .number n => decide (n ≠ 0)
  | .string s => decide (s ≠ "" ∧ s ≠ "0")
  | _ => true

/-- Modelled from the spec: numeric coercion `i64::from(&NaslValue)`
as used by the array-index arm. -/
def naslToInt : NaslValue → Int
  | .number n => n
  | .boolean true => 1
  | .boolean false => 0
  | _ => 0

/-- Modelled from the spec: display form of a value (`to_string`), used
for dictionary keys and the feed-version read-out. -/
def naslToString : NaslValue → String
  | .number n => toString n
  | .string s => s
  | .boolean b => toString b
  | _ => ""

/-- Token-category-to-value conversion for `Primitive` statements. -/
def primToValue : Prim → NaslValue
  | .nullP => .null
  | .numP n => .number n
  | .strP s => .string s

/-- Outcome of the `Block` arm's child loop: ran to the end, stopped
early at a control value (with the frame popped), or stopped at a child
error (frame not popped — mirrored exactly from the source). -/
inductive BlockOut where
  | normal (st : Interp)
  | early (v : NaslValue) (st : Interp)
  | errorOut (e : InterpretError) (st : Interp)

/-- The `Block` arm's loop over its children, parameterised by the child
resolver.  `Ok` control values pop the pushed frame and return early;
errors return early without popping (`Err(e) => return Err(e)` in the
source). -/
def blockRun (res : Interp → Stmt → InterpResult × Interp) :
    Interp → List Stmt → BlockOut
  | st, [] => .normal st
  | st, s :: rest =>
    match res st s with
    | (.ok x, st') =>
      if isControlFlow x then
        .early x { st' with registrat := st'.registrat.tail }
      else blockRun res st' rest
    | (.error e, st') => .errorOut e st'

/-- The `include` arm's loop over the loaded statements: resolve each in
order inside the child interpreter and stop at the first error
(`.find(|e| e.is_err())` over the lazily resolved statements). -/
def seqRun (res : Interp → Stmt → InterpResult × Interp) :
    Interp → List Stmt → InterpResult × Interp
  | st, [] => (.ok .null, st)
  | st, s :: rest =>
    match res st s with
    | (.ok _, st') => seqRun res st' rest
    | (.error e, st') => (.error e, st')

/-- The `Parameter` arm's loop: resolve every child, collecting the
values, stopping at the first error. -/
def paramsRun (res : Interp → Stmt → InterpResult × Interp) :
    Interp → List Stmt → (Except InterpretError (List NaslValue)) × Interp
  | st, [] => (.ok [], st)
  | st, s :: rest =>
    match res st s with
    | (.ok v, st') =>
      (match paramsRun res st' rest with
       | (.ok vs, st'') => (.ok (v :: vs), st'')
       | (.error e, st'') => (.error e, st''))
    | (.error e, st') => (.error e, st')

/-- `Interpreter::resolve`, fuel-indexed (the fuel bounds the recursion
depth, which the Rust program leaves unbounded through `include`; every
recursive call decrements it).  The body mirrors
`interpreter.rs::resolve` arm by arm: push the position, replay a
recorded fork value when `skip_until_return` is set, evaluate the
statement, annotate errors with the statement once, pop the position —
except on the early `return` paths of the `If` and `Block` arms, which
skip both the annotation and the pop just as the source does. -/
def resolve (ctx : Ctx) : Nat → Interp → Stmt → InterpResult × Interp
  | 0 => fun st stmt => (.error { origin := some stmt, kind := .outOfFuel }, st)
  | f + 1 => fun st stmt =>
    let res := resolve ctx f
    let st₁ : Interp := { st with position := 0 :: st.position }
    match st₁.skip_until_return with
    | some (cp, rv) =>
      let st₂ : Interp := { st₁ with position := st₁.position.tail }
      if cp = st₂.position then (.ok rv, { st₂ with skip_until_return := none })
      else (.ok .null, st₂)
    | none =>
      match stmt with
      | .arrayS tok name idx =>
        let stmt := Stmt.arrayS tok name idx
        let val := (st₁.registrat.named name).getD (.value .null)
        (match idx, val with
         | none, .value v => finish stmt (.ok v, st₁)
         | some p, .value (.array xs) =>
           (match res st₁ p with
            | (.ok pv, st₂) =>
              let i := naslToInt pv
              let r := if i < 0 then NaslValue.null
                       else (xs.getD i.toNat .null)
              finish stmt (.ok r, st₂)
            | (.error e, st₂) => finish stmt (.error e, st₂))
         | some p, .value (.dict xs) =>
           (match res st₁ p with
            | (.ok pv, st₂) =>
              finish stmt
                (.ok ((xs.find? (fun q => q.1 == naslToString pv)).elim .null Prod.snd),
                 st₂)
            | (.error e, st₂) => finish stmt (.error e, st₂))
         | some _, .value .null => finish stmt (.ok .null, st₁)
         | some _, .value _ =>
           finish stmt (.error ⟨none, .unsupported "array"⟩, st₁)
         | some _, .function _ _ =>
           finish stmt (.error ⟨none, .unsupported "array"⟩, st₁)
         | none, .function _ _ =>
           finish stmt (.error ⟨none, .unsupported "variable"⟩, st₁))
      | .exitS tok e =>
        let stmt := Stmt.exitS tok e
        (match res st₁ e with
         | (.ok (.number n), st₂) => finish stmt (.ok (.exit n), st₂)
         | (.ok _, st₂) => finish stmt (.error ⟨none, .unsupported "numeric"⟩, st₂)
         | (.error er, st₂) => finish stmt (.error er, st₂))
      | .retS e =>
        let stmt := Stmt.retS e
        (match res st₁ e with
         | (.ok v, st₂) => finish stmt (.ok (.retV v), st₂)
         | (.error er, st₂) => finish stmt (.error er, st₂))
      | .includeS tok inc =>
        let stmt := Stmt.includeS tok inc
        (match res st₁ inc with
         | (.ok (.string key), st₂) =>
           (match ctx.loader key st₂.loadCalls with
            | .error le =>
              finish stmt (.error ⟨none, .loadError le⟩,
                { st₂ with loadCalls := st₂.loadCalls + 1 })
            | .ok stmts =>
              let st₃ : Interp := { st₂ with loadCalls := st₂.loadCalls + 1 }
              let child : Interp :=
                { registrat := st₃.registrat, position := [0],
                  skip_until_return := none, loadCalls := st₃.loadCalls }
              (match seqRun res child stmts with
               | (.ok _, child') =>
                 finish stmt (.ok .null,
                   { st₃ with registrat := child'.registrat,
                              loadCalls := child'.loadCalls })
               | (.error e, child') =>
                 finish stmt (.error e,
                   { st₃ with loadCalls := child'.loadCalls })))
         | (.ok _, st₂) => finish stmt (.error ⟨none, .unsupported "string"⟩, st₂)
         | (.error er, st₂) => finish stmt (.error er, st₂))
      | .parameter xs =>
        let stmt := Stmt.parameter xs
        (match paramsRun res st₁ xs with
         | (.ok vs, st₂) => finish stmt (.ok (.array vs), st₂)
         | (.error e, st₂) => finish stmt (.error e, st₂))
      | .ifS cond thenB elseB =>
        let stmt := Stmt.ifS cond thenB elseB
        (match res st₁ cond with
         | (.ok v, st₂) =>
           if truthy v then res st₂ thenB
           else
             (match elseB with
              | some eb => res st₂ eb
              | none => finish stmt (.ok .null, st₂))
         | (.error er, st₂) => finish stmt (.error er, st₂))
      | .block stmts =>
        let stmt := Stmt.block stmts
        (match blockRun res { st₁ with registrat := [] :: st₁.registrat } stmts with
         | .normal st₂ =>
           finish stmt (.ok .null, { st₂ with registrat := st₂.registrat.tail })
         | .early v st₂ => (.ok v, st₂)
         | .errorOut e st₂ => (.error e, st₂))
      | .var tok name =>
        let stmt := Stmt.var tok name
        (match st₁.registrat.named name with
         | some (.value v) => finish stmt (.ok v, st₁)
         | none => finish stmt (.ok .null, st₁)
         | some (.function _ _) =>
           finish stmt (.error ⟨none, .unsupported "variable"⟩, st₁))
      | .primitive tok p =>
        finish (Stmt.primitive tok p) (.ok (primToValue p), st₁)
      | .call a b c d =>
        finish (Stmt.call a b c d) (.error ⟨none, .unmodeled⟩, st₁)
      | .funcDecl a b c d e =>
        finish (Stmt.funcDecl a b c d e) (.error ⟨none, .unmodeled⟩, st₁)
      | .namedParam a b c =>
        finish (Stmt.namedParam a b c) (.error ⟨none, .unreachableStatement⟩, st₁)
      | .attackCat n => finish (Stmt.attackCat n) (.ok (.attackCategory n), st₁)
      | .continueS => finish Stmt.continueS (.ok .continueV, st₁)
      | .breakS => finish Stmt.breakS (.ok .breakV, st₁)
      | .noop => finish Stmt.noop (.ok .null, st₁)
      | .eof => finish Stmt.eof (.ok .null, st₁)

/-- `retry_resolve_next`'s position bump: increment the last index of
the cursor (the head in the innermost-first representation). -/
def bumpPos (st : Interp) : Interp :=
  { st with position :=
      match st.position with
      | [] => []
      | h :: t => (h + 1) :: t }

/-- `Interpreter::retry_resolve`: resolve, and on a retriable error with
attempts remaining, bump the position (`retry_resolve_next`) and try
again with one fewer attempt; all other errors propagate. -/
def retry_resolve (ctx : Ctx) (fuel : Nat) :
    Interp → Stmt → Nat → InterpResult × Interp
  | st, stmt, n =>
    match resolve ctx fuel st stmt with
    | (.ok x, st') => (.ok x, st')
    | (.error e, st') =>
      match n with
      | 0 => (.error e, st')
      | m + 1 =>
        if retriable e.kind then retry_resolve ctx fuel (bumpPos st') stmt m
        else (.error e, st')

/-- `Interpreter::retry_resolve_next`: advance the cursor ordinal, then
`retry_resolve`. -/
def retry_resolve_next (ctx : Ctx) (fuel : Nat) (st : Interp) (stmt : Stmt)
    (n : Nat) : InterpResult × Interp :=
  retry_resolve ctx fuel (bumpPos st) stmt n

/-! ## Code rewriter (`feed/src/transpile/mod.rs`) -/

/-- `FindParameter`: find a parameter by name, by name and value, or by
index. -/
inductive FindParameter where
  | name (s : String)
  | nameValue (s v : String)
  | index (n : Nat)
deriving DecidableEq, Repr

/-- `Find`: which statements a replace command applies to. -/
inductive Find where
  | functionByName (name : String)
  | functionByParameter (ps : List FindParameter)
  | functionByNameAndParameter (name : String) (ps : List FindParameter)

/-- The `Replace` operation.  Only `Name` — the branch the claims
exercise — is embedded; `Remove` and the `Parameter` surgery operate on
full statement spans and parameter lists that no claim reaches. -/
inductive Replace where
  | name (s : String)

/-- `ReplaceCommand { find, with }` (`with` is reserved in Lean, hence
`with_`). -/
structure ReplaceCommand where
  find : Find
  with_ : Replace

/-- `ReplaceError::Unsupported`. -/
inductive ReplaceError where
  | unsupported
deriving DecidableEq, Repr

/-- `CodeReplacer`: the rewritten text (as characters; all sources the
claims use are ASCII, so byte offsets and character offsets coincide),
the recorded `(split_offset, delta)` list and the changed flag. -/
structure CodeReplacer where
  offsets : List (Nat × Int)
  code : List Char
  changed : Bool
deriving DecidableEq, Repr

/-- The sum of recorded deltas whose split offset is strictly below
`start` (the `filter_map`-and-`sum` of `range_with_offset`). -/
def offsetSum (cr : CodeReplacer) (start : Nat) : Int :=
  ((cr.offsets.filter (fun p => decide (p.1 < start))).map Prod.snd).sum

/-- `CodeReplacer::range_with_offset`: translate a logical range into
current-text coordinates by adding the sum of deltas recorded strictly
before the range's start. -/
def CodeReplacer.range_with_offset (cr : CodeReplacer) (r : Nat × Nat) :
    Nat × Nat :=
  let offset := offsetSum cr r.1
  (((r.1 : Int) + offset).toNat, ((r.2 : Int) + offset).toNat)

/-- `CodeReplacer::replace_range`: splice `new` over the (already
translated) range, flag the change, and record the length delta — at
the translated start for shrinking edits, at the original (logical)
start for growing edits, and not at all when lengths coincide. -/
def CodeReplacer.replace_range (cr : CodeReplacer) (rng : Nat × Nat)
    (new : List Char) (previous : Nat × Nat) : CodeReplacer :=
  let offset : Int := (new.length : Int) - ((previous.2 : Int) - (previous.1 : Int))
  { code := cr.code.take rng.1 ++ new ++ cr.code.drop rng.2,
    changed := true,
    offsets :=
      if offset < 0 then cr.offsets ++ [(rng.1, offset)]
      else if offset = 0 then cr.offsets
      else cr.offsets ++ [(previous.1, offset)] }

/-- `CodeReplacer::replace_range_with_offset`: translate, then splice. -/
def CodeReplacer.replace_range_with_offset (cr : CodeReplacer)
    (new : List Char) (position : Nat × Nat) : CodeReplacer :=
  cr.replace_range (cr.range_with_offset position) new position

/-- Modelled from the spec: `Statement::is_returnable` (defined in the
statement module outside the embedded sources) — the anonymous
arguments of a call are its non-named argument expressions. -/
def Stmt.is_returnable : Stmt → Bool
  | .namedParam _ _ _ => false
  | _ => true

/-- Modelled from the spec: the display form of a statement
(`value.to_string()` of the statement module, outside the embedded
sources), used as the value component of a named-argument shape. -/
def stmtString : Stmt → String
  | .primitive _ (.numP n) => toString n
  | .primitive _ (.strP s) => s
  | .primitive _ .nullP => "NULL"
  | .var _ n => n
  | _ => ""

/-- The first gate of `FunctionNameMatcher::matches`: the statement is
call-like and, when a name is requested, the callee identifier (or the
reserved `exit` / `include` idents) equals it. -/
def nameGate (name : Option String) (s : Stmt) : Bool :=
  match s with
  | .exitS _ _ => (name.map (fun n => n == "exit")).getD true
  | .includeS _ _ => (name.map (fun n => n == "include")).getD true
  | .call _ cname _ _ => (name.map (fun n => n == cname)).getD true
  | .funcDecl _ fname _ _ _ => (name.map (fun n => n == fname)).getD true
  | _ => false

/-- The argument shape `(named, anon_count)` computed by
`FunctionNameMatcher::matches`: `([], 1)` for `Include` / `Exit`, named
entries plus returnable-argument count for a `Call`, positional names
with empty values and `anon = 0` for a `FunctionDeclaration`, and
nothing for statements the matcher never reaches. -/
def argShape (s : Stmt) : Option (List (String × String) × Nat) :=
  match s with
  | .includeS _ _ => some ([], 1)
  | .exitS _ _ => some ([], 1)
  | .call _ _ args _ =>
    let named := args.filterMap (fun a =>
      match a with
      | .namedParam _ n v => some (n, stmtString v)
      | _ => none)
    let anon := (args.filter Stmt.is_returnable).length
    some (named, anon)
  | .funcDecl _ _ params _ _ =>
    let named := (params.filterMap (fun p =>
      match p with
      | .var _ n => some n
      | _ => none)).map (fun x => (x, ""))
    some (named, 0)
  | _ => none

/-- The per-element mismatch test of the matcher's loop (the `result`
value: `true` means the search parameter was *not* found). -/
def paramMismatch (named : List (String × String)) (anon : Nat) :
    FindParameter → Bool
  | .name n => !(named.any (fun p => p.1 == n))
  | .index x => x != anon
  | .nameValue n v => !(named.any (fun p => p.1 == n && p.2 == v))

/-- The matcher's loop over the search parameters: fail at the first
mismatch, succeed when all are found. -/
def paramLoop (named : List (String × String)) (anon : Nat) :
    List FindParameter → Bool
  | [] => true
  | w :: rest =>
    if paramMismatch named anon w then false else paramLoop named anon rest

/-- `FunctionNameMatcher::matches`: the name gate, then (when a
parameter list is requested) the length check and the search loop over
the argument shape. -/
def matcherMatches (name : Option String)
    (parameter : Option (List FindParameter)) (s : Stmt) : Bool :=
  if !(nameGate name s) then false
  else
    match parameter with
    | none => true
    | some wanted =>
      match argShape s with
      | none => false
      | some (named, anon) =>
        if wanted.length ≠ named.length + anon then false
        else paramLoop named anon wanted

/-- `Find::matches`, dispatching to the matcher. -/
def Find.matches (f : Find) (s : Stmt) : Bool :=
  match f with
  | .functionByName n => matcherMatches (some n) none s
  | .functionByParameter ps => matcherMatches none (some ps) s
  | .functionByNameAndParameter n ps => matcherMatches (some n) (some ps) s

/-- The claim-side (spec-worded) reading of "`ps[i]` is found":
`Name(x)` iff some named key equals `x`, `NameValue(x,v)` iff some
named entry equals `(x,v)`, `Index(k)` iff `anon_count = k`.  Stated
separately from the code-side matcher so the matching claim is a real
refinement between the two. -/
def findsParamSpec (named : List (String × String)) (anon : Nat) :
    FindParameter → Prop
  | .name x => ∃ p ∈ named, p.1 = x
  | .nameValue x v => (x, v) ∈ named
  | .index k => anon = k

mutual
/-- `Statement::find`: self plus all descendants, depth-first
pre-order, filtered by the predicate. -/
def Stmt.findStmt (p : Stmt → Bool) (s : Stmt) : List Stmt :=
  (if p s then [s] else []) ++
  (match s with
   | .arrayS _ _ (some i) => Stmt.findStmt p i
   | .parameter args => Stmt.findList p args
   | .namedParam _ _ v => Stmt.findStmt p v
   | .call _ _ args _ => Stmt.findList p args
   | .includeS _ e => Stmt.findStmt p e
   | .exitS _ e => Stmt.findStmt p e
   | .retS e => Stmt.findStmt p e
   | .funcDecl _ _ ps _ body => Stmt.findList p ps ++ Stmt.findStmt p body
   | .block l => Stmt.findList p l
   | .ifS c t (some e) => Stmt.findStmt p c ++ Stmt.findStmt p t ++ Stmt.findStmt p e
   | .ifS c t none => Stmt.findStmt p c ++ Stmt.findStmt p t
   | _ => [])

/-- `find` over a list of sibling statements, in order. -/
def Stmt.findList (p : Stmt → Bool) (l : List Stmt) : List Stmt :=
  match l with
  | [] => []
  | s :: rest => Stmt.findStmt p s ++ Stmt.findList p rest
end

/-- `CodeReplacer::replace_as_string` restricted to the `Replace::Name`
command: splice the new name over the callee-name token's span; any
other statement shape is `ReplaceError::Unsupported`. -/
def replace_as_string (cr : CodeReplacer) (s : Stmt) (r : Replace) :
    Except ReplaceError CodeReplacer :=
  match r with
  | .name newName =>
    match s with
    | .funcDecl nTok _ _ _ _ =>
      .ok (cr.replace_range_with_offset newName.toList nTok.pos)
    | .call nTok _ _ _ =>
      .ok (cr.replace_range_with_offset newName.toList nTok.pos)
    | .exitS tok _ =>
      .ok (cr.replace_range_with_offset newName.toList tok.pos)
    | .includeS tok _ =>
      .ok (cr.replace_range_with_offset newName.toList tok.pos)
    | _ => .error .unsupported

/-- Apply the command to every matched statement in order, aborting at
the first `ReplaceError`. -/
def applyMatches (cr : CodeReplacer) (r : Replace) :
    List Stmt → Except ReplaceError CodeReplacer
  | [] => .ok cr
  | s :: rest =>
    match replace_as_string cr s r with
    | .ok cr' => applyMatches cr' r rest
    | .error e => .error e

/-- Identifier characters of the tokenizer (letters, digits,
underscore). -/
def isIdentChar (c : Char) : Bool := c.isAlphanum || c == '_'

/-- Whitespace characters the tokenizer skips between statements. -/
def isWsChar (c : Char) : Bool := c == ' ' || c == '\n' || c == '\t' || c == '\r'

/-- Characters the modelled parser admits inside an argument list:
identifier characters, spaces, commas and colons.  Parentheses,
semicolons and quotes are excluded, so the argument region is delimited
by the first `)` and contains no nested call-likes. -/
def isArgChar (c : Char) : Bool := isIdentChar c || c == ' ' || c == ',' || c == ':'

/-- Modelled from the spec: the argument expressions of a call, reduced
to the identifier/number tokens they contain, each a `var` carrying its
span.  Within the modelled argument grammar (no nested calls) this is
all the rewriter's recursive `find` can see of them.  Fuel-indexed;
each step consumes at least one character, so `cs.length` fuel is
enough. -/
def argStmtsOf : Nat → List Char → Nat → List Stmt
  | _, [], _ => []
  | 0, _ :: _, _ => []
  | f + 1, c :: rest, pos =>
    if isIdentChar c then
      let run := (c :: rest).takeWhile isIdentChar
      .var ⟨(pos, pos + run.length)⟩ (String.mk run) ::
        argStmtsOf f ((c :: rest).drop run.length) (pos + run.length)
    else
      argStmtsOf f rest (pos + 1)

/-- Modelled from the spec (section 4.2; the parser lives outside the
embedded sources): the statement-stream slice the rewriter claims
exercise.  A source is any sequence of whitespace and call statements
`name(argtext);`; each call yields a `Call` whose callee token spans
the name, whose close-paren token is recorded, and whose arguments are
the tokens of `argStmtsOf`.  `exit` and `include` calls are represented
as plain `Call`s: under `FunctionByName` plus `Replace::Name` the
dedicated variants behave identically (the matcher compares the same
identifier and the splice covers the same token span).  A source
outside this fragment parses to `none`; the driver keeps only
successful parses (`filter_map(|x| x.ok())`), modelled by `parseSource`
returning no statements.  Fuel-indexed; each step consumes at least one
character. -/
def parseProg : Nat → List Char → Nat → Option (List Stmt)
  | _, [], _ => some []
  | 0, _ :: _, _ => none
  | f + 1, c :: rest, pos =>
    if isWsChar c then parseProg f rest (pos + 1)
    else if isIdentChar c then
      let name := (c :: rest).takeWhile isIdentChar
      match (c :: rest).drop name.length with
      | '(' :: rest2 =>
        let argText := rest2.takeWhile (fun d => !(d == ')'))
        if argText.all isArgChar then
          match rest2.drop argText.length with
          | ')' :: ';' :: rest3 =>
            (parseProg f rest3 (pos + name.length + argText.length + 3)).map
              (fun stmts =>
                .call ⟨(pos, pos + name.length)⟩ (String.mk name)
                  (argStmtsOf argText.length argText (pos + name.length + 1))
                  ⟨(pos + name.length + 1 + argText.length,
                    pos + name.length + argText.length + 2)⟩ :: stmts)
          | _ => none
        else none
      | _ => none
    else none

/-- The successfully parsed top-level statements of a source: all of
them when the source lies in the modelled fragment, none otherwise. -/
def parseSource (code : List Char) : List Stmt :=
  (parseProg code.length code 0).getD []

/-- One element of the modelled source fragment: a whitespace character
or a call statement `name(argtext);`. -/
inductive SrcItem where
  | wsChar (c : Char)
  | callItem (name : List Char) (argText : List Char)

/-- The text of one fragment element. -/
def SrcItem.render : SrcItem → List Char
  | .wsChar c => [c]
  | .callItem nm ats => nm ++ '(' :: (ats ++ [')', ';'])

/-- The text of a fragment. -/
def renderItems : List SrcItem → List Char
  | [] => []
  | i :: rest => i.render ++ renderItems rest

/-- Well-formedness of a fragment element: whitespace is whitespace, a
call's name is a nonempty identifier and its argument text stays inside
the argument character set. -/
def SrcItem.ok : SrcItem → Bool
  | .wsChar c => isWsChar c
  | .callItem nm ats => !nm.isEmpty && nm.all isIdentChar && ats.all isArgChar

/-- Well-formedness of a fragment. -/
def itemsOk (l : List SrcItem) : Bool := l.all SrcItem.ok

/-- The statements a fragment parses to, starting at byte `pos`. -/
def stmtsOfItems : List SrcItem → Nat → List Stmt
  | [], _ => []
  | .wsChar _ :: rest, pos => stmtsOfItems rest (pos + 1)
  | .callItem nm ats :: rest, pos =>
    .call ⟨(pos, pos + nm.length)⟩ (String.mk nm)
        (argStmtsOf ats.length ats (pos + nm.length + 1))
        ⟨(pos + nm.length + 1 + ats.length, pos + nm.length + ats.length + 2)⟩ ::
      stmtsOfItems rest (pos + nm.length + ats.length + 3)

/-- The statements `FunctionByName m` matches in a fragment, in
traversal order. -/
def matchedCalls (m : String) : List SrcItem → Nat → List Stmt
  | [], _ => []
  | .wsChar _ :: rest, pos => matchedCalls m rest (pos + 1)
  | .callItem nm ats :: rest, pos =>
    (if String.mk nm = m then
       [Stmt.call ⟨(pos, pos + nm.length)⟩ (String.mk nm)
         (argStmtsOf ats.length ats (pos + nm.length + 1))
         ⟨(pos + nm.length + 1 + ats.length, pos + nm.length + ats.length + 2)⟩]
     else []) ++ matchedCalls m rest (pos + nm.length + ats.length + 3)

/-- Rename every call named `m` to `newName`, leaving whitespace and
all argument text untouched. -/
def renameItems (m newName : String) : List SrcItem → List SrcItem
  | [] => []
  | .wsChar c :: rest => .wsChar c :: renameItems m newName rest
  | .callItem nm ats :: rest =>
    (if String.mk nm = m then SrcItem.callItem newName.toList ats
     else SrcItem.callItem nm ats) :: renameItems m newName rest

/-- Whether some call of the fragment is named `m`. -/
def hasCallNamed (m : String) : List SrcItem → Bool
  | [] => false
  | .wsChar _ :: rest => hasCallNamed m rest
  | .callItem nm _ :: rest => (String.mk nm == m) || hasCallNamed m rest

/-- The command loop of `CodeReplacer::replace`: re-parse when the
statement cache is empty, collect all matches of the command's `find`
over the cached statements, splice each with a fresh per-command
replacer, and — when anything changed — drop the cache and continue on
the new text. -/
def CodeReplacer.replaceCmds :
    List Char → List Stmt → List ReplaceCommand → Except ReplaceError (List Char)
  | code, _, [] => .ok code
  | code, cache, r :: rest =>
    let cache' := if cache.isEmpty then parseSource code else cache
    let replacer : CodeReplacer := ⟨[], code, false⟩
    let ms := cache'.flatMap (fun s => Stmt.findStmt (fun t => r.find.matches t) s)
    match applyMatches replacer r.with_ ms with
    | .error e => .error e
    | .ok cr' =>
      if cr'.changed then CodeReplacer.replaceCmds cr'.code [] rest
      else CodeReplacer.replaceCmds code cache' rest

/-- `CodeReplacer::replace`: run the commands in order over the source,
starting with an empty statement cache. -/
def CodeReplacer.replace (code : List Char) (cmds : List ReplaceCommand) :
    Except ReplaceError (List Char) :=
  CodeReplacer.replaceCmds code [] cmds

/-! ## Knowledge-base built-ins (`nasl-builtin-knowledge-base/src/lib.rs`) -/

/-- Modelled from the spec: the storage `Field` variants the KB getters
filter — `NVT`, `NotusAdvisory` and `Result` entries are skipped, `KB`
carries the stored primitive value. -/
inductive Field where
  | nvt
  | notusAdvisory
  | result
  | kb (key : String) (value : Prim)

/-- The KB values stored under a key, in retrieval order (the
`filter_map` common to both getters). -/
def kbValues (fields : List Field) : List NaslValue :=
  fields.filterMap (fun f =>
    match f with
    | .kb _ v => some (primToValue v)
    | _ => none)

/-- Modelled from the spec: the error kind standard functions return;
the KB getters only surface storage errors. -/
inductive FunctionErrorKind where
  | storage (e : StorageError)

/-- `get_kb_item`: retrieve every KB value stored under the key and
wrap the list in the cooperative-fork sentinel `Value::Fork`. -/
def get_kb_item (retrieve : String → Except StorageError (List Field))
    (key : String) : Except FunctionErrorKind NaslValue :=
  ((retrieve key).map (fun r => NaslValue.fork (kbValues r))).mapError .storage

/-- `get_kb_list`: retrieve the same values and wrap them in a plain
`Value::Array`. -/
def get_kb_list (retrieve : String → Except StorageError (List Field))
    (key : String) : Except FunctionErrorKind NaslValue :=
  ((retrieve key).map (fun r => NaslValue.array (kbValues r))).mapError .storage

/-- The fork-sentinel test: only `Value::Fork` makes the interpreter
spawn sibling continuations. -/
def NaslValue.isFork : NaslValue → Bool
  | .fork _ => true
  | _ => false

/-! ## Feed updater (`feed/src/update/mod.rs`) -/

/-- Modelled from the spec: a verifier (hash-sum / signature) error. -/
inductive VerifyError where
  | invalid (msg : String)
deriving DecidableEq, Repr

/-- A verifier item: the file name plus the outcome its `verify()`
call will report. -/
structure VItem where
  filename : String
  verifyErr : Option VerifyError

/-- The `update::ErrorKind` cases the embedded fragment produces. -/
inductive UpdateErrorKind where
  | verifyError (e : VerifyError)
  | missingExit (key : String)
  | loadError (e : LoadError)
  | interpretError (e : InterpretError)

/-- `update::Error { key, kind }`. -/
structure UpdateError where
  key : String
  kind : UpdateErrorKind

/-- The storage side effects the embedded updater performs:
`description_script_finished` after a successful description run and
`cache_nvt_field(Version …)` when publishing the feed version. -/
inductive Effect where
  | scriptFinished (key : String)
  | cacheVersion (version : String)
deriving DecidableEq, Repr

/-- Is this effect the feed-version publication? -/
def Effect.isCacheVersion : Effect → Bool
  | .cacheVersion _ => true
  | _ => false

/-- The `Update` iterator state: loader, description-mode initial
bindings, the remaining verifier stream, the `feed_version_set` flag,
and the ordered log of storage side effects performed so far (the model
of the shared dispatcher). -/
structure Update where
  loader : String → Except LoadError (List Stmt)
  initial : Frame
  verifier : List (Except VerifyError VItem)
  feed_version_set : Bool
  log : List Effect

/-- `Update::init`: description-mode initial bindings
(`description = true`, `OPENVAS_VERSION = version`) and a cleared
version flag. -/
def Update.init (openvas_version : String)
    (loader : String → Except LoadError (List Stmt))
    (verifier : List (Except VerifyError VItem)) : Update :=
  { loader := loader,
    initial := [("description", .value (.boolean true)),
                ("OPENVAS_VERSION", .value (.string openvas_version))],
    verifier := verifier, feed_version_set := false, log := [] }

/-- Modelled from the spec: the display of a register entry
(`ContextType::to_string`), used to read `PLUGIN_SET`. -/
def ctToString : ContextType → String
  | .value v => naslToString v
  | .function _ _ => ""

/-- Wrap the updater's stateless loader as an interpreter context. -/
def Update.ctx (loader : String → Except LoadError (List Stmt)) : Ctx :=
  ⟨fun k _ => loader k⟩

/-- The statement loop of `feed_version`: `retry_resolve_next` with
three attempts per statement; the first error aborts. -/
def feedVersionRun (ctx : Ctx) (fuel : Nat) :
    Interp → List Stmt → Except UpdateErrorKind Interp
  | st, [] => .ok st
  | st, s :: rest =>
    match retry_resolve_next ctx fuel st s 3 with
    | (.ok _, st') => feedVersionRun ctx fuel st' rest
    | (.error e, _) => .error (.interpretError e)

/-- `feed_version`: load `plugin_feed_info.inc`, interpret it over a
default register, then read the register variable `PLUGIN_SET`,
defaulting to `"0"` when unset. -/
def feed_version (loader : String → Except LoadError (List Stmt))
    (fuel : Nat) : Except UpdateErrorKind String :=
  match loader "plugin_feed_info.inc" with
  | .error le => .error (.loadError le)
  | .ok stmts =>
    match feedVersionRun (Update.ctx loader) fuel ⟨[[]], [0], none, 0⟩ stmts with
    | .error e => .error e
    | .ok st =>
      .ok (((st.registrat.named "PLUGIN_SET").map ctToString).getD "0")

/-- `Update::dispatch_feed_info`: compute the feed version, publish
`NVTField::Version` through the dispatcher, and yield the feed-info
key. -/
def Update.dispatch_feed_info (u : Update) (fuel : Nat) :
    Except UpdateErrorKind String × Update :=
  match feed_version u.loader fuel with
  | .error k => (.error k, u)
  | .ok v =>
    (.ok "plugin_feed_info.inc", { u with log := u.log ++ [.cacheVersion v] })

/-- The statement loop of `Update::single` driving a `CodeInterpreter`:
each top-level statement goes through `retry_resolve_next` with five
attempts (no statement of the fragment spawns fork siblings, so
`next_interpreter` always yields none); an `Exit` value ends the run
successfully, an error aborts it, and exhaustion is `MissingExit(key)`.
The third component counts the top-level statements resolved. -/
def singleGo (ctx : Ctx) (fuel : Nat) (key : String) :
    Interp → List Stmt → Except UpdateErrorKind Int × Interp × Nat
  | st, [] => (.error (.missingExit key), st, 0)
  | st, s :: rest =>
    match retry_resolve_next ctx fuel st s 5 with
    | (.ok (.exit i), st') => (.ok i, st', 1)
    | (.ok _, st') =>
      match singleGo ctx fuel key st' rest with
      | (r, st'', c) => (r, st'', c + 1)
    | (.error e, st') => (.error (.interpretError e), st', 1)

/-- `Update::single`: load the script, run it in description mode
from `root_initial(initial)`, and on an `Exit` value dispatch
`description_script_finished` and report the exit code. -/
def Update.single (u : Update) (fuel : Nat) (key : String) :
    Except UpdateErrorKind Int × Update :=
  match u.loader key with
  | .error le => (.error (.loadError le), u)
  | .ok stmts =>
    match singleGo (Update.ctx u.loader) fuel key
        ⟨Register.root_initial u.initial, [0], none, 0⟩ stmts with
    | (.ok i, _, _) => (.ok i, { u with log := u.log ++ [.scriptFinished key] })
    | (.error k, _, _) => (.error k, u)

/-- The `ends_with(".nasl")` test of the verifier filter, modelled over
characters so that it evaluates. -/
def endsWithNasl (s : String) : Bool :=
  List.isSuffixOf ".nasl".toList s.toList

/-- The verifier `find` of `Update::next`: scan for the first `.nasl`
item or verifier error, consuming everything before and including it. -/
def splitFind (l : List (Except VerifyError VItem)) :
    Option ((Except VerifyError VItem) × List (Except VerifyError VItem)) :=
  match l with
  | [] => none
  | a :: rest =>
    match a with
    | .ok it =>
      if endsWithNasl it.filename then some (a, rest) else splitFind rest
    | .error _ => some (a, rest)

/-- `Update::next`: run the next verified `.nasl` script; once the
verifier is exhausted and the flag still clear, publish the feed
version exactly once and set the flag; afterwards yield nothing.
Yields from verifier errors carry the key the (out-of-fragment)
`From<verify::Error>` conversion supplies, modelled as `""`. -/
def Update.next (u : Update) (fuel : Nat) :
    Option (Except UpdateError String) × Update :=
  match splitFind u.verifier with
  | some (.ok item, rest) =>
    let u₁ : Update := { u with verifier := rest }
    (match item.verifyErr with
     | some e => (some (.error ⟨"", .verifyError e⟩), u₁)
     | none =>
       match Update.single u₁ fuel item.filename with
       | (.ok _, u₂) => (some (.ok item.filename), u₂)
       | (.error kind, u₂) => (some (.error ⟨item.filename, kind⟩), u₂))
  | some (.error e, rest) =>
    (some (.error ⟨"", .verifyError e⟩), { u with verifier := rest })
  | none =>
    if u.feed_version_set then (none, u)
    else
      match Update.dispatch_feed_info u fuel with
      | (res, u') =>
        ((match res with
          | .ok s => some (.ok s)
          | .error k => some (.error ⟨"plugin_feed_info.inc", k⟩)),
         { u' with feed_version_set := true })

/-- Drive the iterator until it yields nothing, collecting the yields
(`fuel` bounds the number of steps; `verifier.length + 2` always
suffices). -/
def runUpdate : Nat → Update → Nat → List (Except UpdateError String) × Update
  | 0, u, _ => ([], u)
  | f + 1, u, rfuel =>
    match Update.next u rfuel with
    | (none, u') => ([], u')
    | (some r, u') =>
      match runUpdate f u' rfuel with
      | (rs, u'') => (r :: rs, u'')

/-- Is this yield the feed-info record? -/
def isFeedRecord : Except UpdateError String → Bool
  | .ok s => s == "plugin_feed_info.inc"
  | .error e => e.key == "plugin_feed_info.inc"

/-- The runs of a prefix of top-level statements none of which resolves
to an `Exit` value; each step is the driver's `retry_resolve_next` with
five attempts. -/
inductive RunPrefix (ctx : Ctx) (fuel : Nat) : Interp → List Stmt → Interp → Prop
  | nil (st : Interp) : RunPrefix ctx fuel st [] st
  | cons (st st' st'' : Interp) (s : Stmt) (rest : List Stmt) (v : NaslValue) :
      retry_resolve_next ctx fuel st s 5 = (.ok v, st') →
      (∀ i, v ≠ .exit i) →
      RunPrefix ctx fuel st' rest st'' →
      RunPrefix ctx fuel st (s :: rest) st''

/-! ## Concrete fixtures used by evaluation theorems and witnesses -/

/-- A context whose loader always fails with `NotFound` (no claim run
through it performs a successful load). -/
def ctx0 : Ctx := ⟨fun _ _ => .error .notFound⟩

/-- An interpreter state with one empty root frame, initial cursor, no
recorded fork value, and no loader calls performed yet. -/
def st0 : Interp := ⟨[[]], [0], none, 0⟩

/-- The loader of the retry scenario: `load` fails with `Retry` on its
first two calls and then succeeds with an empty script. -/
def ctxRetry : Ctx := ⟨fun _ k => if k < 2 then .error .retry else .ok []⟩

/-- An `include("p.inc");` statement. -/
def incStmt : Stmt := .includeS ⟨(0, 0)⟩ (.primitive ⟨(0, 0)⟩ (.strP "p.inc"))

/-- An `exit("x");` statement, whose argument is not numeric, so
resolving it fails. -/
def exitStr : Stmt := .exitS ⟨(0, 0)⟩ (.primitive ⟨(0, 0)⟩ (.strP "x"))

end NaslSpec

namespace NaslSpec

/-! ## Interpreter lemmas -/

/-- The `map_err` closure always yields an error carrying an origin. -/
theorem annotateErr_isSome (stmt : Stmt) (e : InterpretError) :
    (annotateErr stmt e).origin.isSome := by
  cases h : e.origin <;> simp [annotateErr, h]

/-- Every error leaving `finish` (the annotate-and-pop exit path of a
`resolve` arm) carries an origin. -/
theorem finish_error_origin {stmt : Stmt} {p : InterpResult × Interp}
    {e : InterpretError} {st' : Interp}
    (h : finish stmt p = (.error e, st')) : e.origin.isSome := by
  obtain ⟨r, s⟩ := p
  cases r with
  | ok v => simp [finish, annotateRes] at h
  | error e0 =>
    have h1 : annotateErr stmt e0 = e := by
      simpa [finish, annotateRes] using congrArg Prod.fst h
    exact h1 ▸ annotateErr_isSome stmt e0

/-- Errors leaving the `Block` child loop come from a child `resolve`
call, so they inherit its annotation. -/
theorem blockRun_error_origin {res : Interp → Stmt → InterpResult × Interp}
    (hres : ∀ st s e st', res st s = (.error e, st') → e.origin.isSome) :
    ∀ l st e st', blockRun res st l = .errorOut e st' → e.origin.isSome := by
  intro l
  induction l with
  | nil => intro st e st' h; simp [blockRun] at h
  | cons s rest ih =>
    intro st e st' h
    simp only [blockRun] at h
    split at h
    · split at h
      · simp at h
      · exact ih _ _ _ h
    · rename_i e0 st1 heq
      injection h with h1 h2
      exact h1 ▸ hres _ _ _ _ heq

/-- Errors leaving the `include` child loop come from a child `resolve`
call. -/
theorem seqRun_error_origin {res : Interp → Stmt → InterpResult × Interp}
    (hres : ∀ st s e st', res st s = (.error e, st') → e.origin.isSome) :
    ∀ l st e st', seqRun res st l = (.error e, st') → e.origin.isSome := by
  intro l
  induction l with
  | nil => intro st e st' h; simp [seqRun] at h
  | cons s rest ih =>
    intro st e st' h
    simp only [seqRun] at h
    split at h
    · exact ih _ _ _ h
    · rename_i e0 st1 heq
      injection h with h1 h2
      injection h1 with h1
      exact h1 ▸ hres _ _ _ _ heq

/-- Errors leaving the `Parameter` child loop come from a child
`resolve` call. -/
theorem paramsRun_error_origin {res : Interp → Stmt → InterpResult × Interp}
    (hres : ∀ st s e st', res st s = (.error e, st') → e.origin.isSome) :
    ∀ l st e st', paramsRun res st l = (.error e, st') → e.origin.isSome := by
  intro l
  induction l with
  | nil => intro st e st' h; simp [paramsRun] at h
  | cons s rest ih =>
    intro st e st' h
    simp only [paramsRun] at h
    split at h
    · split at h
      · simp at h
      · rename_i heq2
        injection h with h1 h2
        injection h1 with h1
        subst h1
        exact ih _ _ _ heq2
    · rename_i e0 st1 heq
      injection h with h1 h2
      injection h1 with h1
      exact h1 ▸ hres _ _ _ _ heq

/-- Every error returned by `resolve` carries an originating statement:
each arm's exit path runs the `map_err` annotation, and the early-return
paths (`If` branches, `Block` early exits) forward a child `resolve`
result that is already annotated. -/
theorem resolve_error_origin (ctx : Ctx) :
    ∀ f st stmt e st', resolve ctx f st stmt = (.error e, st') →
      e.origin.isSome := by
  intro f
  induction f with
  | zero =>
    intro st stmt e st' h
    simp only [resolve] at h
    injection h with h1 h2
    injection h1 with h1
    subst h1
    rfl
  | succ f ih =>
    intro st stmt e st' h
    cases stmt
    case block stmts =>
      simp only [resolve] at h
      split at h
      · split at h <;> simp_all
      · split at h
        · exact finish_error_origin h
        · simp at h
        · rename_i e0 st2 heq
          injection h with h1 h2
          injection h1 with h1
          subst h1
          exact blockRun_error_origin (fun a b c d hh => ih a b c d hh) _ _ _ _ heq
    all_goals
      simp only [resolve] at h <;>
      (try (split at h; · split at h <;> simp_all)) <;>
      (try (repeat' split at h)) <;>
      first
        | exact finish_error_origin h
        | exact ih _ _ _ _ h

/-! ## Claim theorems: interpreter -/

/-- C1: the claim states that the frame pushed on entering a `Block` is
popped on every exit path, including a child statement's error.  The
code does not pop it on the error path (`Err(e) => return Err(e)` with
no `drop_last`): resolving a block whose single child errors returns
the error with the register holding one frame more than before — the
claim's error-path clause fails on the code. -/
theorem c1_block_frame_not_popped_on_child_error :
    resolve ctx0 5 st0 (.block [exitStr]) =
      (.error ⟨some exitStr, .unsupported "numeric"⟩,
        ⟨[[], []], [0, 0], none, 0⟩) ∧
    (⟨[[], []], [0, 0], none, 0⟩ : Interp).registrat.length =
      st0.registrat.length + 1 :=
  ⟨rfl, rfl⟩

/-- C2: while `skip_until_return` holds a recorded position and value,
resolving a statement whose cursor position differs from the recorded
one yields `Null` and leaves the whole state unchanged (no side
effects), and resolving at the recorded position yields the stored
value and clears the recorded state, leaving everything else
unchanged. -/
theorem c2_fork_skip_replay (ctx : Ctx) (f : Nat) (st : Interp) (stmt : Stmt)
    (cp : List Nat) (rv : NaslValue)
    (h : st.skip_until_return = some (cp, rv)) :
    (cp ≠ st.position → resolve ctx (f + 1) st stmt = (.ok .null, st)) ∧
    (cp = st.position → resolve ctx (f + 1) st stmt =
      (.ok rv, { st with skip_until_return := none })) := by
  constructor <;> intro hcp
  · simp [resolve, h, hcp]
    rw [← h]
  · simp [resolve, h, hcp]

/-- Witness for C2: a state whose recorded position matches the cursor
replays the stored value `7` and clears the marker. -/
theorem c2_fork_skip_replay_witness :
    resolve ctx0 1 ⟨[[]], [3], some ([3], .number 7), 0⟩ .noop =
      (.ok (.number 7), ⟨[[]], [3], none, 0⟩) :=
  (c2_fork_skip_replay ctx0 0 ⟨[[]], [3], some ([3], .number 7), 0⟩ .noop
    [3] (.number 7) rfl).2 rfl

/-- C3: `retry_resolve` re-executes only on `LoadError::Retry`,
`StorageError::Retry` or `IOError(Interrupted)` with attempts
remaining — every other error, and any error with zero attempts left,
propagates unchanged; and the retry step is exactly one bumped-cursor
re-execution with one fewer attempt.  Concretely, with a loader that
fails with `Retry` twice and then succeeds, `retry_resolve` on an
`include` statement with three attempts succeeds after exactly three
loader calls. -/
theorem c3_retry_policy :
    (∀ ctx fuel st stmt e st' n, resolve ctx fuel st stmt = (.error e, st') →
        retriable e.kind = false →
        retry_resolve ctx fuel st stmt n = (.error e, st')) ∧
    (∀ ctx fuel st stmt e st', resolve ctx fuel st stmt = (.error e, st') →
        retry_resolve ctx fuel st stmt 0 = (.error e, st')) ∧
    (∀ ctx fuel st stmt e st' m, resolve ctx fuel st stmt = (.error e, st') →
        retriable e.kind = true →
        retry_resolve ctx fuel st stmt (m + 1) =
          retry_resolve ctx fuel (bumpPos st') stmt m) ∧
    (retry_resolve ctxRetry 10 st0 incStmt 3 = (.ok .null, ⟨[[]], [2], none, 3⟩) ∧
      st0.loadCalls = 0) := by
  refine ⟨?_, ?_, ?_, rfl, rfl⟩
  · intro ctx fuel st stmt e st' n h hret
    cases n <;> simp [retry_resolve, h, hret]
  · intro ctx fuel st stmt e st' h
    simp [retry_resolve, h]
  · intro ctx fuel st stmt e st' m h hret
    rw [retry_resolve, h]
    simp [hret]

/-- Witness for C3: a non-retriable error (`exit` over a string)
propagates unchanged through `retry_resolve` even with attempts left. -/
theorem c3_retry_policy_witness :
    retry_resolve ctx0 2 st0 exitStr 5 =
      (.error ⟨some exitStr, .unsupported "numeric"⟩, st0) :=
  c3_retry_policy.1 ctx0 2 st0 exitStr
    ⟨some exitStr, .unsupported "numeric"⟩ st0 5 rfl rfl

/-- C8: every error propagated out of `resolve` is annotated with an
originating statement exactly once — the deepest `resolve` call whose
error carries no origin attaches the statement it was resolving (so
every error leaving `resolve` has an origin), and the annotation step
of every enclosing `resolve` call leaves an already-set origin
unchanged. -/
theorem c8_error_origin_once :
    (∀ ctx f st stmt e st', resolve ctx f st stmt = (.error e, st') →
      e.origin.isSome) ∧
    (∀ stmt e, e.origin.isSome → annotateErr stmt e = e) := by
  constructor
  · exact fun ctx => resolve_error_origin ctx
  · intro stmt e h
    cases he : e.origin
    · simp [he] at h
    · simp [annotateErr, he]

/-- Witness for C8: the error produced by resolving `exit("x")` carries
an origin. -/
theorem c8_error_origin_once_witness :
    (⟨some exitStr, .unsupported "numeric"⟩ : InterpretError).origin.isSome :=
  c8_error_origin_once.1 ctx0 2 st0 exitStr
    ⟨some exitStr, .unsupported "numeric"⟩ st0 rfl

end NaslSpec

namespace NaslSpec

/-! ## Code rewriter lemmas and claim theorems -/

/-- A search parameter mismatches (the matcher's `result` is `true`)
exactly when the claim-side "found" reading fails. -/
theorem paramMismatch_false_iff (named : List (String × String)) (anon : Nat)
    (w : FindParameter) :
    paramMismatch named anon w = false ↔ findsParamSpec named anon w := by
  cases w with
  | name nm => simp [paramMismatch, findsParamSpec]
  | nameValue nm v =>
    simp only [paramMismatch, findsParamSpec, Bool.not_eq_false', List.any_eq_true,
      Bool.and_eq_true, beq_iff_eq]
    constructor
    · rintro ⟨p, hp, hp1, hp2⟩
      obtain ⟨a, b⟩ := p
      simp only at hp1 hp2
      subst hp1; subst hp2; exact hp
    · intro hmem
      exact ⟨(nm, v), hmem, rfl, rfl⟩
  | index k =>
    simp only [paramMismatch, findsParamSpec, bne_eq_false_iff_eq]
    exact eq_comm

/-- The matcher's loop succeeds exactly when every search parameter is
found. -/
theorem paramLoop_iff (named : List (String × String)) (anon : Nat) :
    ∀ ps, paramLoop named anon ps = true ↔
      ∀ p ∈ ps, findsParamSpec named anon p := by
  intro ps
  induction ps with
  | nil => simp [paramLoop]
  | cons w rest ih =>
    simp only [paramLoop]
    split_ifs with hw
    · have hnot : ¬ findsParamSpec named anon w := by
        rw [← paramMismatch_false_iff]
        simp [hw]
      simp [hnot]
    · have hws : findsParamSpec named anon w :=
        (paramMismatch_false_iff named anon w).1 (by simpa using hw)
      simp [ih, hws]

/-- C5: for every `Call`, `FunctionDeclaration`, `Include` or `Exit`
statement — the statements whose argument shape `(named, anon_count)`
is defined, with `anon_count = 0` for a declaration and `([], 1)` for
`Include` / `Exit` — a search list `ps` matches iff
`len(ps) = len(named) + anon_count` and every element of `ps` is found:
`Name(x)` iff some named key equals `x`, `NameValue(x,v)` iff some
named entry equals `(x,v)`, `Index(k)` iff `anon_count = k`. -/
theorem c5_parameter_shape_matching (s : Stmt)
    (named : List (String × String)) (anon : Nat) (ps : List FindParameter)
    (h : argShape s = some (named, anon)) :
    matcherMatches none (some ps) s = true ↔
      (ps.length = named.length + anon ∧
        ∀ p ∈ ps, findsParamSpec named anon p) := by
  have hg : nameGate none s = true := by
    cases s <;> simp [argShape] at h <;> simp [nameGate]
  simp only [matcherMatches, hg, Bool.not_true, Bool.false_eq_true, if_false, h]
  split_ifs with hlen
  · simp [hlen]
  · rw [not_not] at hlen
    simp [hlen, paramLoop_iff]

/-- Witness for C5: `f(a: 1, 2)` — shape `([("a","1")], 1)` — is matched
by the search list `[Name("a"), Index(1)]`. -/
theorem c5_parameter_shape_matching_witness :
    matcherMatches none (some [.name "a", .index 1])
      (.call ⟨(0, 1)⟩ "f"
        [.namedParam ⟨(2, 3)⟩ "a" (.primitive ⟨(5, 6)⟩ (.numP 1)),
         .primitive ⟨(8, 9)⟩ (.numP 2)] ⟨(9, 10)⟩) = true :=
  (c5_parameter_shape_matching
      (.call ⟨(0, 1)⟩ "f"
        [.namedParam ⟨(2, 3)⟩ "a" (.primitive ⟨(5, 6)⟩ (.numP 1)),
         .primitive ⟨(8, 9)⟩ (.numP 2)] ⟨(9, 10)⟩)
      [("a", "1")] 1 [.name "a", .index 1] rfl).2
    ⟨rfl, by
      intro p hp
      simp only [List.mem_cons, List.not_mem_nil, or_false] at hp
      rcases hp with rfl | rfl
      · exact ⟨("a", "1"), by simp, rfl⟩
      · rfl⟩

/-- C4 counterexample: splicing `"z"` over the logical range `(2,5)` of
`"xxabcyy"` (a shrinking edit, no prior offsets) records the entry
`(2, -2)`: the split offset is the start of the splice, not its end —
neither the end of the replaced range in current coordinates (`5`) nor
the end of the inserted text (`3`), refuting the claim's description of
shrinking edits. -/
theorem c4_shrink_offset_counterexample :
    (CodeReplacer.replace_range_with_offset ⟨[], "xxabcyy".toList, false⟩
        "z".toList (2, 5)).offsets = [(2, -2)] ∧
      (2 : Nat) ≠ 5 ∧ (2 : Nat) ≠ 3 :=
  ⟨by decide, by decide, by decide⟩

/-- C4 (amended): every splice translates its logical range by adding
the sum of recorded deltas whose split offset is strictly below the
range's start; and a splice whose replacement length differs records
exactly one `(split_offset, delta)` entry — at the *start of the splice
in current-text coordinates* for shrinking edits (this is where the
claim said "end of the splice") and at the start of the original range
for growing edits; length-preserving splices record nothing. -/
theorem c4_offset_tracking (cr : CodeReplacer) (r : Nat × Nat) (new : List Char)
    (h1 : 0 ≤ (r.1 : Int) + offsetSum cr r.1)
    (h2 : 0 ≤ (r.2 : Int) + offsetSum cr r.1) :
    ((cr.range_with_offset r).1 : Int) = (r.1 : Int) + offsetSum cr r.1 ∧
    ((cr.range_with_offset r).2 : Int) = (r.2 : Int) + offsetSum cr r.1 ∧
    (cr.replace_range_with_offset new r).offsets =
      cr.offsets ++
        (if (new.length : Int) - ((r.2 : Int) - (r.1 : Int)) < 0 then
           [((cr.range_with_offset r).1,
             (new.length : Int) - ((r.2 : Int) - (r.1 : Int)))]
         else if (new.length : Int) - ((r.2 : Int) - (r.1 : Int)) = 0 then []
         else [(r.1, (new.length : Int) - ((r.2 : Int) - (r.1 : Int)))]) := by
  refine ⟨?_, ?_, ?_⟩
  · simp [CodeReplacer.range_with_offset, Int.toNat_of_nonneg h1]
  · simp [CodeReplacer.range_with_offset, Int.toNat_of_nonneg h2]
  · simp only [CodeReplacer.replace_range_with_offset, CodeReplacer.replace_range]
    split_ifs <;> simp

/-- Witness for C4: a growing splice over `(3,5)` with one earlier
delta `(1, 2)` translates to `(5,7)` and records `(3, 1)` at the
original start. -/
theorem c4_offset_tracking_witness :
    (((⟨[(1, 2)], "abcdefgh".toList, false⟩ : CodeReplacer).range_with_offset
        (3, 5)).1 : Int) =
      (3 : Int) + offsetSum ⟨[(1, 2)], "abcdefgh".toList, false⟩ 3 ∧
    (((⟨[(1, 2)], "abcdefgh".toList, false⟩ : CodeReplacer).range_with_offset
        (3, 5)).2 : Int) =
      (5 : Int) + offsetSum ⟨[(1, 2)], "abcdefgh".toList, false⟩ 3 ∧
    ((⟨[(1, 2)], "abcdefgh".toList, false⟩ : CodeReplacer).replace_range_with_offset
        "xyz".toList (3, 5)).offsets =
      [(1, 2)] ++
        (if ((3 : Nat) : Int) - ((5 : Int) - (3 : Int)) < 0 then
           [(((⟨[(1, 2)], "abcdefgh".toList, false⟩ : CodeReplacer).range_with_offset
               (3, 5)).1, ((3 : Nat) : Int) - ((5 : Int) - (3 : Int)))]
         else if ((3 : Nat) : Int) - ((5 : Int) - (3 : Int)) = 0 then []
         else [(3, ((3 : Nat) : Int) - ((5 : Int) - (3 : Int)))]) := by
  have h := c4_offset_tracking ⟨[(1, 2)], "abcdefgh".toList, false⟩ (3, 5)
    "xyz".toList (by decide) (by decide)
  simpa using h

end NaslSpec

namespace NaslSpec

/-- A run of characters satisfying `p` followed by anything passes
through `takeWhile` unchanged. -/
theorem takeWhile_append_all (p : Char → Bool) (l t : List Char)
    (h : ∀ c ∈ l, p c = true) :
    (l ++ t).takeWhile p = l ++ t.takeWhile p := by
  induction l with
  | nil => rfl
  | cons c rest ih =>
    have hc : p c = true := h c (by simp)
    simp only [List.cons_append, List.takeWhile_cons, hc, if_true]
    rw [ih (fun d hd => h d (by simp [hd]))]

/-- An identifier character is not whitespace. -/
theorem ident_not_ws (c : Char) (h : isIdentChar c = true) : isWsChar c = false := by
  cases hw : isWsChar c
  · rfl
  · exfalso
    simp only [isWsChar, Bool.or_eq_true, beq_iff_eq] at hw
    rcases hw with ((rfl | rfl) | rfl) | rfl <;> exact absurd h (by decide)

/-- An argument character is not a closing parenthesis. -/
theorem argChar_not_close (c : Char) (h : isArgChar c = true) :
    (!(c == ')')) = true := by
  cases he : c == ')'
  · rfl
  · exfalso
    rw [beq_iff_eq] at he
    subst he
    exact absurd h (by decide)

/-- Whitespace step of the modelled parser. -/
theorem parseProg_ws (f : Nat) (c : Char) (t : List Char) (pos : Nat)
    (h : isWsChar c = true) :
    parseProg (f + 1) (c :: t) pos = parseProg f t (pos + 1) := by
  simp [parseProg, h]

/-- Call-statement step of the modelled parser: well-formed call text
consumes `name(argtext);` and emits the corresponding `Call`. -/
theorem parseProg_callStep (f : Nat) (nm ats t : List Char) (pos : Nat)
    (hne : nm ≠ []) (hnm : ∀ c ∈ nm, isIdentChar c = true)
    (hats : ∀ c ∈ ats, isArgChar c = true) :
    parseProg (f + 1) (nm ++ '(' :: (ats ++ ')' :: ';' :: t)) pos =
      (parseProg f t (pos + nm.length + ats.length + 3)).map
        (fun stmts =>
          .call ⟨(pos, pos + nm.length)⟩ (String.mk nm)
            (argStmtsOf ats.length ats (pos + nm.length + 1))
            ⟨(pos + nm.length + 1 + ats.length,
              pos + nm.length + ats.length + 2)⟩ :: stmts) := by
  obtain ⟨c, nm0, rfl⟩ : ∃ c nm0, nm = c :: nm0 := by
    cases nm with
    | nil => exact absurd rfl hne
    | cons c nm0 => exact ⟨c, nm0, rfl⟩
  have hc : isIdentChar c = true := hnm c (by simp)
  have hws : isWsChar c = false := ident_not_ws c hc
  have hparen : isIdentChar '(' = false := by decide
  have htake : ((c :: nm0) ++ '(' :: (ats ++ ')' :: ';' :: t)).takeWhile isIdentChar
      = c :: nm0 := by
    rw [takeWhile_append_all _ _ _ hnm]
    simp [List.takeWhile_cons, hparen]
  have hclose : (!(')' == ')')) = false := by decide
  have hatsTake : (ats ++ ')' :: ';' :: t).takeWhile (fun d => !(d == ')')) = ats := by
    rw [takeWhile_append_all _ _ _ (fun d hd => argChar_not_close d (hats d hd))]
    simp [List.takeWhile_cons, hclose]
  have hall : ats.all isArgChar = true := List.all_eq_true.mpr hats
  simp only [List.cons_append] at htake ⊢
  simp only [parseProg, hws, Bool.false_eq_true, if_false, hc, if_true, htake,
    List.length_cons, List.drop_succ_cons, List.drop_left, hatsTake, hall]

/-- Parsing the render of a well-formed fragment yields its statements,
for any sufficient fuel. -/
theorem parseProg_renderItems (items : List SrcItem) :
    ∀ f pos, (renderItems items).length ≤ f → itemsOk items = true →
      parseProg f (renderItems items) pos = some (stmtsOfItems items pos) := by
  induction items with
  | nil => intro f pos _ _; cases f <;> rfl
  | cons i rest ih =>
    intro f pos hf hok
    rw [itemsOk, List.all_cons, Bool.and_eq_true] at hok
    obtain ⟨hi, hrest⟩ := hok
    cases i with
    | wsChar c =>
      have hws : isWsChar c = true := hi
      have hf' : (renderItems rest).length + 1 ≤ f := by
        simp only [renderItems, SrcItem.render, List.singleton_append,
          List.length_cons] at hf
        omega
      obtain ⟨f1, rfl⟩ : ∃ f1, f = f1 + 1 := ⟨f - 1, by omega⟩
      have hshape : renderItems (SrcItem.wsChar c :: rest) = c :: renderItems rest := rfl
      rw [hshape, parseProg_ws f1 c _ pos hws, ih f1 (pos + 1) (by omega) hrest]
      rfl
    | callItem nm ats =>
      rw [SrcItem.ok, Bool.and_eq_true, Bool.and_eq_true] at hi
      obtain ⟨⟨hne0, hnm0⟩, hats0⟩ := hi
      have hne : nm ≠ [] := by
        cases nm
        · exact absurd hne0 (by simp)
        · simp
      have hnm : ∀ c ∈ nm, isIdentChar c = true := List.all_eq_true.mp hnm0
      have hats : ∀ c ∈ ats, isArgChar c = true := List.all_eq_true.mp hats0
      have hshape : renderItems (SrcItem.callItem nm ats :: rest) =
          nm ++ '(' :: (ats ++ ')' :: ';' :: renderItems rest) := by
        simp [renderItems, SrcItem.render]
      have hlenr : (renderItems (SrcItem.callItem nm ats :: rest)).length =
          nm.length + ats.length + 3 + (renderItems rest).length := by
        rw [hshape]
        simp only [List.length_append, List.length_cons]
        omega
      rw [hlenr] at hf
      obtain ⟨f1, rfl⟩ : ∃ f1, f = f1 + 1 := ⟨f - 1, by omega⟩
      rw [hshape, parseProg_callStep f1 nm ats _ pos hne hnm hats,
          ih f1 (pos + nm.length + ats.length + 3) (by omega) hrest]
      rfl

/-- `parseSource` on the render of a well-formed fragment. -/
theorem parseSource_renderItems (items : List SrcItem) (hok : itemsOk items = true) :
    parseSource (renderItems items) = stmtsOfItems items 0 := by
  rw [parseSource, parseProg_renderItems items _ 0 le_rfl hok]
  rfl

/-- Completeness of the fragment description: any source the modelled
parser accepts is the render of a well-formed fragment. -/
theorem parseProg_complete :
    ∀ f (code : List Char) (pos : Nat) (stmts : List Stmt),
      parseProg f code pos = some stmts →
      ∃ items, itemsOk items = true ∧ renderItems items = code := by
  intro f
  induction f with
  | zero =>
    intro code pos stmts h
    cases code with
    | nil => exact ⟨[], rfl, rfl⟩
    | cons c rest => exact absurd h (by simp [parseProg])
  | succ f ih =>
    intro code pos stmts h
    cases code with
    | nil => exact ⟨[], rfl, rfl⟩
    | cons c rest =>
      by_cases hws : isWsChar c = true
      · rw [parseProg_ws f c rest pos hws] at h
        obtain ⟨items, hok, hrender⟩ := ih rest (pos + 1) stmts h
        refine ⟨.wsChar c :: items, ?_, ?_⟩
        · rw [itemsOk, List.all_cons]
          rw [itemsOk] at hok
          simp [SrcItem.ok, hws, hok]
        · simp [renderItems, SrcItem.render, hrender]
      · rw [Bool.not_eq_true] at hws
        by_cases hid : isIdentChar c = true
        · simp only [parseProg, hws, Bool.false_eq_true, if_false, hid, if_true] at h
          split at h
          next rest2 heq =>
            split at h
            next hall =>
              split at h
              next rest3 heq2 =>
                cases hp : parseProg f rest3
                    (pos + ((c :: rest).takeWhile isIdentChar).length +
                      (rest2.takeWhile (fun d => !(d == ')'))).length + 3) with
                | none => rw [hp] at h; exact absurd h (by simp)
                | some stmts1 =>
                  obtain ⟨items, hok, hrender⟩ := ih rest3 _ stmts1 hp
                  refine ⟨.callItem ((c :: rest).takeWhile isIdentChar)
                    (rest2.takeWhile (fun d => !(d == ')'))) :: items, ?_, ?_⟩
                  · rw [itemsOk, List.all_cons, Bool.and_eq_true]
                    rw [itemsOk] at hok
                    refine ⟨?_, hok⟩
                    rw [SrcItem.ok, Bool.and_eq_true, Bool.and_eq_true]
                    have htw : (c :: rest).takeWhile isIdentChar =
                        c :: rest.takeWhile isIdentChar := by
                      rw [List.takeWhile_cons, if_pos hid]
                    refine ⟨⟨?_, ?_⟩, hall⟩
                    · rw [htw]
                      rfl
                    · exact List.all_eq_true.mpr
                        (fun a ha => List.mem_takeWhile_imp ha)
                  · have hpre1 : (c :: rest) =
                        (c :: rest).takeWhile isIdentChar ++
                          (c :: rest).drop ((c :: rest).takeWhile isIdentChar).length := by
                      conv_lhs => rw [← List.take_append_drop
                        ((c :: rest).takeWhile isIdentChar).length (c :: rest)]
                      rw [← List.prefix_iff_eq_take.mp (List.takeWhile_prefix _)]
                    have hpre2 : rest2 =
                        rest2.takeWhile (fun d => !(d == ')')) ++
                          rest2.drop (rest2.takeWhile (fun d => !(d == ')'))).length := by
                      conv_lhs => rw [← List.take_append_drop
                        (rest2.takeWhile (fun d => !(d == ')'))).length rest2]
                      rw [← List.prefix_iff_eq_take.mp (List.takeWhile_prefix _)]
                    rw [heq] at hpre1
                    rw [heq2] at hpre2
                    have hfinal : c :: rest =
                        (c :: rest).takeWhile isIdentChar ++
                          '(' :: (rest2.takeWhile (fun d => !(d == ')')) ++
                            ')' :: ';' :: rest3) := by
                      conv_lhs => rw [hpre1]
                      conv_lhs => rw [hpre2]
                    conv_rhs => rw [hfinal]
                    simp [renderItems, SrcItem.render, hrender]
              next => exact absurd h (by simp)
            next hall => exact absurd h (by simp)
          next => exact absurd h (by simp)
        · rw [Bool.not_eq_true] at hid
          simp [parseProg, hws, hid] at h

/-- `FunctionByName` on a call reduces to comparing the callee name. -/
theorem matches_name_call (fname nm : String) (a b : Tok) (args : List Stmt) :
    Find.matches (.functionByName fname) (.call a nm args b) = (fname == nm) := by
  simp only [Find.matches, matcherMatches, nameGate, Option.map_some', Option.getD_some]
  cases h : fname == nm <;> simp [h]

/-- `FunctionByName` never matches a bare variable token. -/
theorem matches_var_false (m : String) (tk : Tok) (nm : String) :
    Find.matches (.functionByName m) (.var tk nm) = false := rfl

/-- `find` on a variable that the predicate rejects yields nothing. -/
theorem findStmt_var_none (p : Stmt → Bool) (tk : Tok) (nm : String)
    (h : p (.var tk nm) = false) :
    Stmt.findStmt p (.var tk nm) = [] := by
  rw [Stmt.findStmt, h]
  · rfl
  all_goals intros
  all_goals rename_i hcontra
  all_goals exact Stmt.noConfusion hcontra

/-- The rewriter's recursive `find` sees nothing in tokenized argument
text. -/
theorem findList_argStmts (m : String) :
    ∀ f cs pos, Stmt.findList (fun t => Find.matches (.functionByName m) t)
      (argStmtsOf f cs pos) = [] := by
  intro f
  induction f with
  | zero =>
    intro cs pos
    cases cs <;> rfl
  | succ f ih =>
    intro cs pos
    cases cs with
    | nil => rfl
    | cons c rest =>
      simp only [argStmtsOf]
      by_cases hc : isIdentChar c = true
      · rw [if_pos hc, Stmt.findList,
          findStmt_var_none _ _ _ (matches_var_false m _ _), List.nil_append]
        exact ih _ _
      · rw [if_neg hc]
        exact ih _ _

/-- `find` over a call whose arguments are tokenized argument text
yields the call itself exactly when the matcher accepts the name. -/
theorem findStmt_call_argtoks (m : String) (a b : Tok) (nm : String)
    (f : Nat) (cs : List Char) (q : Nat) :
    Stmt.findStmt (fun t => Find.matches (.functionByName m) t)
      (.call a nm (argStmtsOf f cs q) b) =
      if m = nm then [.call a nm (argStmtsOf f cs q) b] else [] := by
  rw [Stmt.findStmt]
  simp [matches_name_call, findList_argStmts]

/-- `find` over the fragment's statements collects exactly the calls
named `m`, in order. -/
theorem findList_stmtsOfItems (m : String) (items : List SrcItem) :
    ∀ pos, Stmt.findList (fun t => Find.matches (.functionByName m) t)
      (stmtsOfItems items pos) = matchedCalls m items pos := by
  induction items with
  | nil => intro pos; rfl
  | cons i rest ih =>
    intro pos
    cases i with
    | wsChar c =>
      simp only [stmtsOfItems, matchedCalls]
      exact ih _
    | callItem nm ats =>
      rw [stmtsOfItems, matchedCalls, Stmt.findList, findStmt_call_argtoks, ih]
      by_cases h : String.mk nm = m
      · rw [if_pos h.symm, if_pos h]
      · rw [if_neg (fun hh => h hh.symm), if_neg h, List.nil_append]

/-- Collecting `find` results statement by statement is `findList`. -/
theorem flatMap_findStmt (p : Stmt → Bool) (l : List Stmt) :
    l.flatMap (fun s => Stmt.findStmt p s) = Stmt.findList p l := by
  induction l with
  | nil => rfl
  | cons s rest ih => rw [List.flatMap_cons, ih, Stmt.findList]

/-- A fragment containing a call named `m` parses to some statement the
matcher accepts. -/
theorem hasCall_exists_match (m : String) (items : List SrcItem) :
    ∀ pos, hasCallNamed m items = true →
      ∃ s ∈ stmtsOfItems items pos, Find.matches (.functionByName m) s = true := by
  induction items with
  | nil => intro pos h; exact absurd h (by simp [hasCallNamed])
  | cons i rest ih =>
    intro pos h
    cases i with
    | wsChar c =>
      rw [hasCallNamed] at h
      obtain ⟨s, hs, hm⟩ := ih (pos + 1) h
      exact ⟨s, by rw [stmtsOfItems]; exact hs, hm⟩
    | callItem nm ats =>
      rw [hasCallNamed, Bool.or_eq_true] at h
      rcases h with h | h
      · rw [beq_iff_eq] at h
        refine ⟨.call ⟨(pos, pos + nm.length)⟩ (String.mk nm)
          (argStmtsOf ats.length ats (pos + nm.length + 1))
          ⟨(pos + nm.length + 1 + ats.length, pos + nm.length + ats.length + 2)⟩,
          by rw [stmtsOfItems]; exact List.mem_cons_self _ _, ?_⟩
        rw [matches_name_call, h]
        exact beq_self_eq_true m
      · obtain ⟨s, hs, hm⟩ := ih (pos + nm.length + ats.length + 3) h
        exact ⟨s, by rw [stmtsOfItems]; exact List.mem_cons_of_mem _ hs, hm⟩

/-- Renaming `n` to itself changes nothing. -/
theorem renameItems_self (n : String) (items : List SrcItem) :
    renameItems n n items = items := by
  induction items with
  | nil => rfl
  | cons i rest ih =>
    cases i with
    | wsChar c => rw [renameItems, ih]
    | callItem nm ats =>
      rw [renameItems, ih]
      by_cases h : String.mk nm = n
      · rw [if_pos h, ← h]
        rfl
      · rw [if_neg h]

/-- Renaming with a well-formed new name preserves fragment
well-formedness. -/
theorem itemsOk_renameItems (n x : String) (items : List SrcItem)
    (hx0 : x.toList ≠ []) (hx1 : ∀ c ∈ x.toList, isIdentChar c = true)
    (hok : itemsOk items = true) :
    itemsOk (renameItems n x items) = true := by
  induction items with
  | nil => rfl
  | cons i rest ih =>
    rw [itemsOk, List.all_cons, Bool.and_eq_true] at hok
    obtain ⟨hi, hrest⟩ := hok
    have ih' := ih hrest
    cases i with
    | wsChar c =>
      rw [renameItems, itemsOk, List.all_cons]
      rw [itemsOk] at ih'
      simp [hi, ih']
    | callItem nm ats =>
      rw [SrcItem.ok, Bool.and_eq_true, Bool.and_eq_true] at hi
      obtain ⟨⟨hne0, hnm0⟩, hats0⟩ := hi
      rw [renameItems, itemsOk, List.all_cons]
      rw [itemsOk] at ih'
      by_cases h : String.mk nm = n
      · rw [if_pos h, Bool.and_eq_true]
        refine ⟨?_, ih'⟩
        rw [SrcItem.ok, Bool.and_eq_true, Bool.and_eq_true]
        have hxe : x.toList.isEmpty = false := by
          cases hx : x.toList
          · exact absurd hx hx0
          · rfl
        refine ⟨⟨?_, List.all_eq_true.mpr hx1⟩, hats0⟩
        rw [hxe]
        rfl
      · rw [if_neg h, Bool.and_eq_true]
        refine ⟨?_, ih'⟩
        rw [SrcItem.ok, Bool.and_eq_true, Bool.and_eq_true]
        exact ⟨⟨hne0, hnm0⟩, hats0⟩

/-- After renaming `n` to `x`, the renamed fragment has a call named
`x` whenever the original had one named `n`. -/
theorem hasCall_renameItems (n x : String) (items : List SrcItem)
    (h : hasCallNamed n items = true) :
    hasCallNamed x (renameItems n x items) = true := by
  induction items with
  | nil => exact absurd h (by simp [hasCallNamed])
  | cons i rest ih =>
    cases i with
    | wsChar c =>
      rw [hasCallNamed] at h
      rw [renameItems, hasCallNamed]
      exact ih h
    | callItem nm ats =>
      rw [hasCallNamed, Bool.or_eq_true] at h
      rw [renameItems]
      by_cases hcn : String.mk nm = n
      · rw [if_pos hcn, hasCallNamed]
        have hxx : (String.mk x.toList == x) = true := by
          rw [beq_iff_eq]
          rfl
        rw [hxx, Bool.true_or]
      · rw [if_neg hcn, hasCallNamed]
        rcases h with h | h
        · exact absurd (beq_iff_eq.mp h) hcn
        · rw [ih h, Bool.or_true]

/-- When the fragment contains no call named `x`, renaming `n → x` and
then `x → n` is the identity. -/
theorem renameItems_inverse (n x : String) (items : List SrcItem)
    (hx : hasCallNamed x items = false) :
    renameItems x n (renameItems n x items) = items := by
  induction items with
  | nil => rfl
  | cons i rest ih =>
    cases i with
    | wsChar c =>
      rw [hasCallNamed] at hx
      rw [renameItems, renameItems, ih hx]
    | callItem nm ats =>
      rw [hasCallNamed] at hx
      obtain ⟨hnx, hrest⟩ := Bool.or_eq_false_iff.mp hx
      rw [renameItems]
      by_cases hcn : String.mk nm = n
      · rw [if_pos hcn, renameItems]
        have hxx : String.mk x.toList = x := rfl
        rw [if_pos hxx, ih hrest]
        have hnm_eq : nm = n.toList := by
          rw [← hcn]
          rfl
        rw [← hnm_eq]
      · rw [if_neg hcn, renameItems]
        have hne2 : ¬(String.mk nm = x) := by
          intro hh
          rw [hh] at hnx
          simp at hnx
        rw [if_neg hne2, ih hrest]

/-- When every recorded split offset lies strictly below `p`, the
translation offset at `p` is the sum of all recorded deltas. -/
theorem offsetSum_all (cr : CodeReplacer) (p : Nat)
    (h : ∀ e ∈ cr.offsets, e.1 < p) :
    offsetSum cr p = (cr.offsets.map Prod.snd).sum := by
  rw [offsetSum, List.filter_eq_self.mpr (fun a ha => decide_eq_true (h a ha))]

/-- Core invariant of one `Replace::Name` command over a fragment: with
the text left of `pos` already rewritten into `P` — every recorded
split offset below `pos`, the recorded deltas summing to
`P.length - pos`, and `P` no longer than `pos` when the rename
shrinks — splicing the new name over every matched call succeeds and
rewrites exactly the renamed fragment. -/
theorem applyMatches_renameItems (m x : String) :
    ∀ (items : List SrcItem) (pos : Nat) (P : List Char) (cr : CodeReplacer),
      itemsOk items = true →
      cr.code = P ++ renderItems items →
      (∀ e ∈ cr.offsets, e.1 < pos) →
      ((cr.offsets.map Prod.snd).sum = (P.length : Int) - (pos : Int)) →
      (x.toList.length < m.toList.length → P.length ≤ pos) →
      ∃ cr', applyMatches cr (.name x) (matchedCalls m items pos) = .ok cr' ∧
        cr'.code = P ++ renderItems (renameItems m x items) ∧
        cr'.changed = (cr.changed || hasCallNamed m items) := by
  intro items
  induction items with
  | nil =>
    intro pos P cr hok hcode hlt hsum hshrink
    refine ⟨cr, rfl, ?_, ?_⟩
    · rw [renameItems]
      exact hcode
    · rw [hasCallNamed, Bool.or_false]
  | cons i rest ih =>
    intro pos P cr hok hcode hlt hsum hshrink
    rw [itemsOk, List.all_cons, Bool.and_eq_true] at hok
    obtain ⟨hi, hrest⟩ := hok
    cases i with
    | wsChar c =>
      have hcode2 : cr.code = (P ++ [c]) ++ renderItems rest := by
        rw [hcode, renderItems]
        simp [SrcItem.render, List.append_assoc]
      have hlt2 : ∀ e ∈ cr.offsets, e.1 < pos + 1 :=
        fun e he => Nat.lt_succ_of_lt (hlt e he)
      have hsum2 : (cr.offsets.map Prod.snd).sum =
          ((P ++ [c]).length : Int) - ((pos + 1 : Nat) : Int) := by
        rw [hsum]
        simp only [List.length_append, List.length_cons, List.length_nil]
        omega
      have hshrink2 : x.toList.length < m.toList.length → (P ++ [c]).length ≤ pos + 1 := by
        intro hh
        have := hshrink hh
        simp only [List.length_append, List.length_cons, List.length_nil]
        omega
      obtain ⟨cr', h1, h2, h3⟩ := ih (pos + 1) (P ++ [c]) cr hrest hcode2 hlt2 hsum2 hshrink2
      refine ⟨cr', ?_, ?_, ?_⟩
      · rw [matchedCalls]
        exact h1
      · rw [h2, renameItems, renderItems]
        simp [SrcItem.render, List.append_assoc]
      · rw [h3, hasCallNamed]
    | callItem nm ats =>
      by_cases hm : String.mk nm = m
      · -- the matched call: splice, then recurse on the rewritten state
        have hnmlen : nm.length = m.toList.length :=
          congrArg (fun s => s.toList.length) hm
        have htotal : offsetSum cr pos = (P.length : Int) - (pos : Int) := by
          rw [offsetSum_all cr pos hlt, hsum]
        have hrange : cr.range_with_offset (pos, pos + nm.length) =
            (P.length, P.length + nm.length) := by
          rw [CodeReplacer.range_with_offset]
          simp only [htotal]
          have e1 : ((pos : Int) + ((P.length : Int) - (pos : Int))).toNat = P.length := by
            omega
          have e2 : (((pos + nm.length : Nat) : Int) +
              ((P.length : Int) - (pos : Int))).toNat = P.length + nm.length := by
            omega
          rw [e1, e2]
        have hsplit1 : cr.code =
            (P ++ nm) ++ ('(' :: (ats ++ ')' :: ';' :: renderItems rest)) := by
          rw [hcode, renderItems]
          simp [SrcItem.render, List.append_assoc]
        have htake : cr.code.take P.length = P := by
          rw [hcode]
          exact List.take_left P _
        have hdrop : cr.code.drop (P.length + nm.length) =
            '(' :: (ats ++ ')' :: ';' :: renderItems rest) := by
          rw [hsplit1]
          exact List.drop_left' (by rw [List.length_append])
        have hofsarg : ((x.toList.length : Int) -
            (((pos + nm.length : Nat) : Int) - ((pos : Nat) : Int))) =
            (x.toList.length : Int) - (nm.length : Int) := by
          push_cast
          ring
        have hcr1 : cr.replace_range_with_offset x.toList (pos, pos + nm.length) =
            { offsets :=
                if (x.toList.length : Int) - (nm.length : Int) < 0 then
                  cr.offsets ++ [(P.length, (x.toList.length : Int) - (nm.length : Int))]
                else if (x.toList.length : Int) - (nm.length : Int) = 0 then cr.offsets
                else cr.offsets ++ [(pos, (x.toList.length : Int) - (nm.length : Int))],
              code := (P ++ (x.toList ++ ('(' :: (ats ++ [')', ';'])))) ++ renderItems rest,
              changed := true } := by
          rw [CodeReplacer.replace_range_with_offset, hrange, CodeReplacer.replace_range]
          simp only [hofsarg, htake, hdrop]
          simp [List.append_assoc]
        have hoffs1 : (cr.replace_range_with_offset x.toList (pos, pos + nm.length)).offsets =
            if (x.toList.length : Int) - (nm.length : Int) < 0 then
              cr.offsets ++ [(P.length, (x.toList.length : Int) - (nm.length : Int))]
            else if (x.toList.length : Int) - (nm.length : Int) = 0 then cr.offsets
            else cr.offsets ++ [(pos, (x.toList.length : Int) - (nm.length : Int))] := by
          rw [hcr1]
        have hcode1 : (cr.replace_range_with_offset x.toList (pos, pos + nm.length)).code =
            (P ++ (x.toList ++ ('(' :: (ats ++ [')', ';'])))) ++ renderItems rest := by
          rw [hcr1]
        have hchanged1 :
            (cr.replace_range_with_offset x.toList (pos, pos + nm.length)).changed = true := by
          rw [hcr1]
        have hlt2 : ∀ e ∈ (cr.replace_range_with_offset x.toList
            (pos, pos + nm.length)).offsets,
            e.1 < pos + nm.length + ats.length + 3 := by
          rw [hoffs1]
          intro e he
          rcases lt_trichotomy ((x.toList.length : Int) - (nm.length : Int)) 0 with hd | hd | hd
          · rw [if_pos hd] at he
            rcases List.mem_append.mp he with h' | h'
            · have := hlt e h'
              omega
            · have he2 : e = (P.length, (x.toList.length : Int) - (nm.length : Int)) := by
                simpa using h'
              rw [he2]
              have hP := hshrink (by omega)
              show P.length < pos + nm.length + ats.length + 3
              omega
          · rw [if_neg (by omega), if_pos hd] at he
            have := hlt e he
            omega
          · rw [if_neg (by omega), if_neg (by omega)] at he
            rcases List.mem_append.mp he with h' | h'
            · have := hlt e h'
              omega
            · have he2 : e = (pos, (x.toList.length : Int) - (nm.length : Int)) := by
                simpa using h'
              rw [he2]
              show pos < pos + nm.length + ats.length + 3
              omega
        have hPlen : (P ++ (x.toList ++ ('(' :: (ats ++ [')', ';'])))).length =
            P.length + x.toList.length + ats.length + 3 := by
          simp only [List.length_append, List.length_cons, List.length_nil]
          omega
        have hsum2 : ((cr.replace_range_with_offset x.toList
              (pos, pos + nm.length)).offsets.map Prod.snd).sum =
            ((P ++ (x.toList ++ ('(' :: (ats ++ [')', ';'])))).length : Int) -
              ((pos + nm.length + ats.length + 3 : Nat) : Int) := by
          rw [hoffs1, hPlen]
          rcases lt_trichotomy ((x.toList.length : Int) - (nm.length : Int)) 0 with hd | hd | hd
          · rw [if_pos hd]
            simp only [List.map_append, List.sum_append, List.map_cons, List.map_nil,
              List.sum_cons, List.sum_nil]
            rw [hsum]
            omega
          · rw [if_neg (by omega), if_pos hd, hsum]
            omega
          · rw [if_neg (by omega), if_neg (by omega)]
            simp only [List.map_append, List.sum_append, List.map_cons, List.map_nil,
              List.sum_cons, List.sum_nil]
            rw [hsum]
            omega
        have hshrink2 : x.toList.length < m.toList.length →
            (P ++ (x.toList ++ ('(' :: (ats ++ [')', ';'])))).length ≤
              pos + nm.length + ats.length + 3 := by
          intro hh
          have hP := hshrink hh
          rw [hPlen]
          omega
        have hcode2 : (cr.replace_range_with_offset x.toList (pos, pos + nm.length)).code =
            (P ++ (x.toList ++ ('(' :: (ats ++ [')', ';'])))) ++ renderItems rest := hcode1
        obtain ⟨cr', h1, h2, h3⟩ := ih (pos + nm.length + ats.length + 3)
          (P ++ (x.toList ++ ('(' :: (ats ++ [')', ';']))))
          (cr.replace_range_with_offset x.toList (pos, pos + nm.length))
          hrest hcode2 hlt2 hsum2 hshrink2
        refine ⟨cr', ?_, ?_, ?_⟩
        · rw [matchedCalls, if_pos hm, List.singleton_append, applyMatches]
          simp only [replace_as_string]
          exact h1
        · rw [h2, renameItems, if_pos hm, renderItems]
          simp [SrcItem.render, List.append_assoc]
        · rw [hchanged1, Bool.true_or] at h3
          have hbeq : (String.mk nm == m) = true := by
            rw [beq_iff_eq]
            exact hm
          rw [h3, hasCallNamed, hbeq, Bool.true_or, Bool.or_true]
      · -- an unmatched call: shift the left context across the item
        have hcode2 : cr.code =
            (P ++ SrcItem.render (SrcItem.callItem nm ats)) ++ renderItems rest := by
          rw [hcode, renderItems]
          simp [List.append_assoc]
        have hlenR : (SrcItem.render (SrcItem.callItem nm ats)).length =
            nm.length + ats.length + 3 := by
          simp only [SrcItem.render, List.length_append, List.length_cons, List.length_nil]
          omega
        have hlt2 : ∀ e ∈ cr.offsets, e.1 < pos + nm.length + ats.length + 3 := by
          intro e he
          have := hlt e he
          omega
        have hsum2 : (cr.offsets.map Prod.snd).sum =
            ((P ++ SrcItem.render (SrcItem.callItem nm ats)).length : Int) -
              ((pos + nm.length + ats.length + 3 : Nat) : Int) := by
          rw [hsum]
          simp only [List.length_append, hlenR]
          omega
        have hshrink2 : x.toList.length < m.toList.length →
            (P ++ SrcItem.render (SrcItem.callItem nm ats)).length ≤
              pos + nm.length + ats.length + 3 := by
          intro hh
          have := hshrink hh
          simp only [List.length_append, hlenR]
          omega
        obtain ⟨cr', h1, h2, h3⟩ := ih (pos + nm.length + ats.length + 3)
          (P ++ SrcItem.render (SrcItem.callItem nm ats)) cr
          hrest hcode2 hlt2 hsum2 hshrink2
        refine ⟨cr', ?_, ?_, ?_⟩
        · rw [matchedCalls, if_neg hm, List.nil_append]
          exact h1
        · rw [h2, renameItems, if_neg hm, renderItems]
          simp [SrcItem.render, List.append_assoc]
        · rw [h3, hasCallNamed]
          have hbeq : (String.mk nm == m) = false := by
            rw [beq_eq_false_iff_ne]
            exact hm
          rw [hbeq, Bool.false_or]

/-- Starting a command with an empty cache parses the current source. -/
theorem replaceCmds_fill_cache (code : List Char) (r : ReplaceCommand)
    (rest : List ReplaceCommand) :
    CodeReplacer.replaceCmds code [] (r :: rest) =
      CodeReplacer.replaceCmds code (parseSource code) (r :: rest) := by
  rw [CodeReplacer.replaceCmds, CodeReplacer.replaceCmds]
  simp [ite_self]

/-- One `FunctionByName → Name` command over a fragment's cached
statements: when some call is named `m`, the source is rewritten to the
renamed fragment and the cache dropped; otherwise nothing changes and
the cache is kept. -/
theorem replaceCmds_render_step (m x : String) (items : List SrcItem)
    (rest : List ReplaceCommand) (hok : itemsOk items = true) :
    CodeReplacer.replaceCmds (renderItems items) (stmtsOfItems items 0)
        (⟨.functionByName m, .name x⟩ :: rest) =
      (if hasCallNamed m items then
        CodeReplacer.replaceCmds (renderItems (renameItems m x items)) [] rest
      else
        CodeReplacer.replaceCmds (renderItems items) (stmtsOfItems items 0) rest) := by
  obtain ⟨cr', h1, h2, h3⟩ := applyMatches_renameItems m x items 0 []
    ⟨[], renderItems items, false⟩ hok (by simp) (by simp) (by simp) (by simp)
  have hcache : (if (stmtsOfItems items 0).isEmpty then parseSource (renderItems items)
      else stmtsOfItems items 0) = stmtsOfItems items 0 := by
    cases hc : (stmtsOfItems items 0).isEmpty
    · rfl
    · rw [parseSource_renderItems items hok]
      simp
  rw [CodeReplacer.replaceCmds]
  simp only [hcache, flatMap_findStmt, findList_stmtsOfItems, h1, h3, Bool.false_or,
    List.nil_append, h2]

/-- C9 (amended): for any source text the modelled parser accepts and
any names `n` and `x` with `x` a nonempty identifier, if no parsed
statement already matches `FunctionByName x` — unless `x = n` — then
the command `FunctionByName n → Name x` followed by
`FunctionByName x → Name n` restores the source byte for byte through
the embedded replacer pipeline.  The restriction on a pre-existing `x`
is the one the counterexample forces. -/
theorem c9_name_rename_roundtrip (code : List Char) (stmts : List Stmt) (n x : String)
    (hp : parseProg code.length code 0 = some stmts)
    (hx0 : x.toList ≠ []) (hx1 : ∀ c ∈ x.toList, isIdentChar c = true)
    (h3 : (∃ s ∈ stmts, Find.matches (.functionByName x) s = true) → x = n) :
    CodeReplacer.replace code
      [⟨.functionByName n, .name x⟩, ⟨.functionByName x, .name n⟩] =
      .ok code := by
  obtain ⟨items, hok, rfl⟩ := parseProg_complete code.length code 0 stmts hp
  have hstmts : stmts = stmtsOfItems items 0 := by
    have h2 := parseProg_renderItems items (renderItems items).length 0 le_rfl hok
    rw [hp] at h2
    exact Option.some.inj h2
  have h3' : hasCallNamed x items = true → x = n := by
    intro hh
    apply h3
    obtain ⟨s, hs, hm⟩ := hasCall_exists_match x items 0 hh
    exact ⟨s, by rw [hstmts]; exact hs, hm⟩
  rw [CodeReplacer.replace, replaceCmds_fill_cache, parseSource_renderItems items hok,
      replaceCmds_render_step n x items _ hok]
  by_cases hn : hasCallNamed n items = true
  · rw [if_pos hn]
    by_cases hxn : x = n
    · rw [hxn, renameItems_self]
      rw [replaceCmds_fill_cache, parseSource_renderItems items hok,
          replaceCmds_render_step n n items [] hok, if_pos hn, renameItems_self]
      rw [CodeReplacer.replaceCmds]
    · have hnox : hasCallNamed x items = false := by
        cases hcx : hasCallNamed x items
        · rfl
        · exact absurd (h3' hcx) hxn
      have hok2 : itemsOk (renameItems n x items) = true :=
        itemsOk_renameItems n x items hx0 hx1 hok
      rw [replaceCmds_fill_cache, parseSource_renderItems _ hok2,
          replaceCmds_render_step x n _ [] hok2,
          if_pos (hasCall_renameItems n x items hn),
          renameItems_inverse n x items hnox]
      rw [CodeReplacer.replaceCmds]
  · rw [if_neg hn]
    rw [replaceCmds_render_step x n items [] hok]
    have hnox : hasCallNamed x items = false := by
      cases hcx : hasCallNamed x items
      · rfl
      · exfalso
        have hxe := h3' hcx
        subst hxe
        exact hn hcx
    rw [if_neg (by rw [hnox]; simp)]
    rw [CodeReplacer.replaceCmds]

/-- C9 counterexample: `"funkerino();"` parses without error, yet
renaming `funker → funkerino` and then `funkerino → funker` yields
`"funker();"`, not the original — the second command also rewrites
occurrences of the new name that were already present, so the claimed
unrestricted round trip fails for sources that already contain the
intermediate name. -/
theorem c9_roundtrip_counterexample :
    parseSource "funkerino();".toList ≠ [] ∧
    CodeReplacer.replace "funkerino();".toList
      [⟨.functionByName "funker", .name "funkerino"⟩,
       ⟨.functionByName "funkerino", .name "funker"⟩] =
      .ok "funker();".toList ∧
    "funker();".toList ≠ "funkerino();".toList :=
  ⟨by
      intro h
      have hlen : (parseSource "funkerino();".toList).length = 1 := rfl
      rw [h] at hlen
      exact absurd hlen (by decide),
    rfl, by decide⟩

/-- Witness for C9: the two-statement source
`funker(1); funker(a: 2);` — exercising two matched splices through the
offset machinery, whitespace, and named argument text — renames
`funker → funkerino` and back, restoring the source. -/
theorem c9_name_rename_roundtrip_witness :
    CodeReplacer.replace "funker(1); funker(a: 2);".toList
      [⟨.functionByName "funker", .name "funkerino"⟩,
       ⟨.functionByName "funkerino", .name "funker"⟩] =
      .ok "funker(1); funker(a: 2);".toList :=
  c9_name_rename_roundtrip "funker(1); funker(a: 2);".toList
    (parseSource "funker(1); funker(a: 2);".toList) "funker" "funkerino"
    rfl (by decide) (by decide)
    (fun h => absurd h (by decide))

end NaslSpec

namespace NaslSpec

/-! ## Knowledge-base and updater claim theorems -/

/-- C10: for every successful KB retrieval, `get_kb_item` returns
`Value::Fork` of the stored values (in retrieval order) while
`get_kb_list` returns a plain `Value::Array` of the same values; only
the former is the cooperative-fork sentinel. -/
theorem c10_kb_item_forks_kb_list_does_not
    (retrieve : String → Except StorageError (List Field))
    (key : String) (fields : List Field) (h : retrieve key = .ok fields) :
    get_kb_item retrieve key = .ok (.fork (kbValues fields)) ∧
    get_kb_list retrieve key = .ok (.array (kbValues fields)) ∧
    (NaslValue.fork (kbValues fields)).isFork = true ∧
    (NaslValue.array (kbValues fields)).isFork = false := by
  refine ⟨?_, ?_, rfl, rfl⟩ <;>
    simp [get_kb_item, get_kb_list, h, Except.map, Except.mapError]

/-- Witness for C10: two KB entries under `"k"` (with an NVT field in
between) yield `Fork [1, "v"]` and `Array [1, "v"]`. -/
theorem c10_kb_item_forks_kb_list_does_not_witness :
    get_kb_item (fun _ => .ok [.kb "k" (.numP 1), .nvt, .kb "k" (.strP "v")]) "k" =
      .ok (.fork (kbValues [.kb "k" (.numP 1), .nvt, .kb "k" (.strP "v")])) ∧
    get_kb_list (fun _ => .ok [.kb "k" (.numP 1), .nvt, .kb "k" (.strP "v")]) "k" =
      .ok (.array (kbValues [.kb "k" (.numP 1), .nvt, .kb "k" (.strP "v")])) ∧
    (NaslValue.fork (kbValues [.kb "k" (.numP 1), .nvt, .kb "k" (.strP "v")])).isFork
      = true ∧
    (NaslValue.array (kbValues [.kb "k" (.numP 1), .nvt, .kb "k" (.strP "v")])).isFork
      = false :=
  c10_kb_item_forks_kb_list_does_not
    (fun _ => .ok [.kb "k" (.numP 1), .nvt, .kb "k" (.strP "v")]) "k"
    [.kb "k" (.numP 1), .nvt, .kb "k" (.strP "v")] rfl

/-- C7: in a description run, when the statements before `s` all
resolve to non-`Exit` values and `s` resolves to `Exit(i)`, the run
reports success with exit code `i` after resolving exactly
`pre.length + 1` top-level statements — no statement after `s` is
resolved, whatever follows; and when every statement of the script
resolves without producing an `Exit`, the run reports
`MissingExit(key)` with the script's path. -/
theorem c7_description_run_stops_at_exit :
    (∀ ctx fuel key pre st st₁, RunPrefix ctx fuel st pre st₁ →
      ∀ s post i st₂,
        retry_resolve_next ctx fuel st₁ s 5 = (.ok (.exit i), st₂) →
        singleGo ctx fuel key st (pre ++ s :: post) =
          (.ok i, st₂, pre.length + 1)) ∧
    (∀ ctx fuel key stmts st st₁, RunPrefix ctx fuel st stmts st₁ →
      singleGo ctx fuel key st stmts =
        (.error (.missingExit key), st₁, stmts.length)) := by
  constructor
  · intro ctx fuel key pre st st₁ h
    induction h with
    | nil st0 =>
      intro s post i st₂ hs
      simp [singleGo, hs]
    | cons st st' st'' s0 rest v hstep hnv hrest ih =>
      intro s post i st₂ hs
      have ihs := ih s post i st₂ hs
      rw [List.cons_append, singleGo, hstep]
      cases v
      case exit j => exact absurd rfl (hnv j)
      all_goals simp only [ihs, List.length_cons]
  · intro ctx fuel key stmts st st₁ h
    induction h with
    | nil st0 => simp [singleGo]
    | cons st st' st'' s0 rest v hstep hnv hrest ih =>
      rw [singleGo, hstep]
      cases v
      case exit j => exact absurd rfl (hnv j)
      all_goals simp only [ih, List.length_cons]

/-- Witness for C7: in `[noop, exit(3), noop]` the run stops at the
`exit(3)` statement with code `3` after resolving two statements — the
trailing `noop` is never resolved. -/
theorem c7_description_run_stops_at_exit_witness :
    singleGo ctx0 9 "a.nasl" st0
      [.noop, .exitS ⟨(0, 0)⟩ (.primitive ⟨(0, 0)⟩ (.numP 3)), .noop] =
      (.ok 3, ⟨[[]], [2], none, 0⟩, 2) :=
  c7_description_run_stops_at_exit.1 ctx0 9 "a.nasl" [.noop] st0
    ⟨[[]], [1], none, 0⟩
    (.cons _ _ _ _ _ _ rfl (fun i h => NaslValue.noConfusion h) (.nil _))
    (.exitS ⟨(0, 0)⟩ (.primitive ⟨(0, 0)⟩ (.numP 3))) [.noop] 3
    ⟨[[]], [2], none, 0⟩ rfl

end NaslSpec
namespace NaslSpec

/-- The verifier `find` strictly consumes the stream. -/
theorem splitFind_length :
    ∀ l a rest, splitFind l = some (a, rest) → rest.length < l.length := by
  intro l
  induction l with
  | nil => intro a rest h; simp [splitFind] at h
  | cons x xs ih =>
    intro a rest h
    simp only [splitFind] at h
    split at h
    · split at h
      · injection h with h1
        injection h1 with h1 h2
        subst h2
        simp
      · have := ih a rest h
        simp
        omega
    · injection h with h1
      injection h1 with h1 h2
      subst h2
      simp

/-- The item the verifier `find` stops at satisfies the `.nasl` filter. -/
theorem splitFind_pred :
    ∀ l it rest, splitFind l = some (.ok it, rest) →
      endsWithNasl it.filename = true := by
  intro l
  induction l with
  | nil => intro it rest h; simp [splitFind] at h
  | cons x xs ih =>
    intro it rest h
    simp only [splitFind] at h
    split at h
    · rename_i it0 heq
      split at h
      · rename_i hend
        injection h with h1
        injection h1 with h1 h2
        cases h1
        exact hend
      · exact ih it rest h
    · injection h with h1
      injection h1 with h1 h2
      cases h1

/-- A `.nasl` filename is never the feed-info key. -/
theorem endsWith_nasl_ne_feed (s : String) (h : endsWithNasl s = true) :
    (s == "plugin_feed_info.inc") = false := by
  rw [beq_eq_false_iff_ne]
  intro he
  subst he
  exact absurd h (by decide)

/-- A description run only ever logs `description_script_finished`,
never a version publication. -/
theorem single_log (u : Update) (fuel : Nat) (key : String) :
    ∃ ext, (Update.single u fuel key).2 = { u with log := u.log ++ ext } ∧
      ∀ e ∈ ext, e.isCacheVersion = false := by
  unfold Update.single
  split
  · exact ⟨[], by simp, by simp⟩
  · split
    · exact ⟨[.scriptFinished key], rfl, by simp [Effect.isCacheVersion]⟩
    · exact ⟨[], by simp, by simp⟩

/-- While the verifier still holds a `.nasl` entry (or an error), one
iterator step consumes it, yields a non-feed record, and logs no
version publication. -/
theorem next_consume_step (u : Update) (rfuel : Nat)
    (x : Except VerifyError VItem) (rest : List (Except VerifyError VItem))
    (hsp : splitFind u.verifier = some (x, rest)) :
    ∃ r ext, Update.next u rfuel =
        (some r, { u with verifier := rest, log := u.log ++ ext }) ∧
      isFeedRecord r = false ∧ ∀ e ∈ ext, e.isCacheVersion = false := by
  unfold Update.next
  rw [hsp]
  cases x with
  | error e =>
    exact ⟨.error ⟨"", .verifyError e⟩, [], by simp, rfl, by simp⟩
  | ok item =>
    have hpred : endsWithNasl item.filename = true :=
      splitFind_pred _ _ _ hsp
    cases hv : item.verifyErr with
    | some e =>
      exact ⟨.error ⟨"", .verifyError e⟩, [], by simp [hv], rfl, by simp⟩
    | none =>
      obtain ⟨ext, h2, h3⟩ := single_log { u with verifier := rest } rfuel item.filename
      cases hres : Update.single { u with verifier := rest } rfuel item.filename with
      | mk res u₂ =>
        rw [hres] at h2
        simp only at h2
        subst h2
        cases res with
        | ok i =>
          refine ⟨.ok item.filename, ext, by simp [hv, hres], ?_, h3⟩
          simp [isFeedRecord, endsWith_nasl_ne_feed _ hpred]
        | error k =>
          refine ⟨.error ⟨item.filename, k⟩, ext, by simp [hv, hres], ?_, h3⟩
          simp [isFeedRecord, endsWith_nasl_ne_feed _ hpred]

end NaslSpec

namespace NaslSpec

/-- Once the verifier is drained, the iterator publishes the version
and then yields nothing forever. -/
theorem c6_drained (u : Update) (rfuel : Nat) (v : String)
    (hsp : splitFind u.verifier = none)
    (hset : u.feed_version_set = false)
    (hfv : feed_version u.loader rfuel = .ok v) :
    ∀ fuel, 2 ≤ fuel →
      ∃ init mid u',
        runUpdate fuel u rfuel = (init ++ [.ok "plugin_feed_info.inc"], u') ∧
        (∀ r ∈ init, isFeedRecord r = false) ∧
        u'.log = u.log ++ mid ++ [.cacheVersion v] ∧
        (∀ e ∈ mid, e.isCacheVersion = false) ∧
        Update.next u' rfuel = (none, u') ∧
        u'.feed_version_set = true := by
  intro fuel hfuel
  obtain ⟨f2, rfl⟩ : ∃ f2, fuel = f2 + 1 + 1 := ⟨fuel - 2, by omega⟩
  have hnext : Update.next u rfuel = (some (.ok "plugin_feed_info.inc"), { u with log := u.log ++ [.cacheVersion v], feed_version_set := true }) := by
    unfold Update.next Update.dispatch_feed_info
    rw [hsp, hfv]
    simp [hset]
  have hnext2 : Update.next { u with log := u.log ++ [.cacheVersion v], feed_version_set := true } rfuel = (none, { u with log := u.log ++ [.cacheVersion v], feed_version_set := true }) := by
    unfold Update.next
    dsimp only
    rw [hsp]
    simp
  rw [runUpdate, hnext]
  simp only []
  rw [runUpdate, hnext2]
  exact ⟨[], [],
    { u with log := u.log ++ [.cacheVersion v], feed_version_set := true },
    by simp, by simp, by simp, by simp, hnext2, rfl⟩

/-- C6: driving a fresh `Update` iterator to exhaustion yields the
feed-info record exactly once, as the very last yield (every earlier
yield concerns a `.nasl` script); the dispatcher log gains exactly one
`cache_nvt_field(Version v)` entry — with `v` produced by
`feed_version`, i.e. by interpreting `plugin_feed_info.inc` and reading
`PLUGIN_SET` with default `"0"` — as its final element; and every
`next()` call after that yields `None`. -/
theorem c6_feed_version_published_once_last (u : Update) (rfuel : Nat) (v : String)
    (hset : u.feed_version_set = false)
    (hfv : feed_version u.loader rfuel = .ok v) :
    ∀ fuel, u.verifier.length + 2 ≤ fuel →
      ∃ init mid u',
        runUpdate fuel u rfuel = (init ++ [.ok "plugin_feed_info.inc"], u') ∧
        (∀ r ∈ init, isFeedRecord r = false) ∧
        u'.log = u.log ++ mid ++ [.cacheVersion v] ∧
        (∀ e ∈ mid, e.isCacheVersion = false) ∧
        Update.next u' rfuel = (none, u') ∧
        u'.feed_version_set = true := by
  suffices H : ∀ N u, u.verifier.length ≤ N → u.feed_version_set = false →
      feed_version u.loader rfuel = .ok v →
      ∀ fuel, u.verifier.length + 2 ≤ fuel →
      ∃ init mid u',
        runUpdate fuel u rfuel = (init ++ [.ok "plugin_feed_info.inc"], u') ∧
        (∀ r ∈ init, isFeedRecord r = false) ∧
        u'.log = u.log ++ mid ++ [.cacheVersion v] ∧
        (∀ e ∈ mid, e.isCacheVersion = false) ∧
        Update.next u' rfuel = (none, u') ∧
        u'.feed_version_set = true by
    exact H u.verifier.length u le_rfl hset hfv
  intro N
  induction N with
  | zero =>
    intro u hlen huset hufv fuel hfuel
    have hnil : u.verifier = [] := List.length_eq_zero.mp (Nat.le_zero.mp hlen)
    have hsp : splitFind u.verifier = none := by rw [hnil]; rfl
    exact c6_drained u rfuel v hsp huset hufv fuel (by omega)
  | succ N ihN =>
    intro u hlen huset hufv fuel hfuel
    cases hsp : splitFind u.verifier with
    | none => exact c6_drained u rfuel v hsp huset hufv fuel (by omega)
    | some p =>
      obtain ⟨x, rest⟩ := p
      obtain ⟨r, ext, hnext, hrF, hextF⟩ := next_consume_step u rfuel x rest hsp
      have hrest : rest.length < u.verifier.length := splitFind_length _ _ _ hsp
      obtain ⟨f1, rfl⟩ : ∃ f1, fuel = f1 + 1 := ⟨fuel - 1, by omega⟩
      have hlen2 :
          ({ u with verifier := rest, log := u.log ++ ext } : Update).verifier.length ≤ N := by
        simp
        omega
      have hfuel2 :
          ({ u with verifier := rest, log := u.log ++ ext } : Update).verifier.length + 2 ≤ f1 := by
        simp
        omega
      obtain ⟨init', mid', u', h1, h2, h3, h4, h5, h6⟩ :=
        ihN { u with verifier := rest, log := u.log ++ ext } hlen2 huset hufv f1 hfuel2
      refine ⟨r :: init', ext ++ mid', u', ?_, ?_, ?_, ?_, h5, h6⟩
      · rw [runUpdate, hnext]
        simp [h1]
      · intro rr hrr
        rcases List.mem_cons.mp hrr with rfl | hmem
        · exact hrF
        · exact h2 rr hmem
      · rw [h3]
        simp
      · intro e he
        rcases List.mem_append.mp he with hmem | hmem
        · exact hextF e hmem
        · exact h4 e hmem

end NaslSpec

namespace NaslSpec

/-- Witness for C6: a feed with an empty verifier and a loader serving
an empty `plugin_feed_info.inc` publishes version `"0"` (the default
for an unset `PLUGIN_SET`) as the single, last yield and side effect. -/
theorem c6_feed_version_published_once_last_witness :
    ∃ init mid u',
      runUpdate 2
        (Update.init "1"
          (fun k => if k == "plugin_feed_info.inc" then .ok [] else .error .notFound)
          []) 5 =
        (init ++ [.ok "plugin_feed_info.inc"], u') ∧
      (∀ r ∈ init, isFeedRecord r = false) ∧
      u'.log =
        (Update.init "1"
          (fun k => if k == "plugin_feed_info.inc" then .ok [] else .error .notFound)
          []).log ++ mid ++ [.cacheVersion "0"] ∧
      (∀ e ∈ mid, e.isCacheVersion = false) ∧
      Update.next u' 5 = (none, u') ∧
      u'.feed_version_set = true :=
  c6_feed_version_published_once_last
    (Update.init "1"
      (fun k => if k == "plugin_feed_info.inc" then .ok [] else .error .notFound)
      []) 5 "0" rfl rfl 2 (Nat.le_refl 2)

end NaslSpec
